import Mathlib

set_option maxRecDepth 40000

/-!
Verification of the Wabbrik/raytracer sources (`src/vec3.rs`, `src/main.rs`).

The Rust `f32` type is embedded exactly as IEEE-754 binary32 over integer
dyadic arithmetic: a finite nonzero value is `m * 2 ^ e` with `m` odd, and
every arithmetic operation rounds its exact rational result to the nearest
representable value with ties to even, producing signed zeros, infinities and
NaN exactly as the hardware does.  All definitions are executable, so concrete
programs evaluate by `decide`.
-/

/-- Length in bits of a natural number, with explicit fuel so that the kernel
can evaluate it (`nbits fuel n = ⌊log2 n⌋ + 1` for `0 < n < 2 ^ fuel`). -/
def nbits : ℕ → ℕ → ℕ
  | 0, _ => 0
  | f+1, n => if n = 0 then 0 else 1 + nbits f (n / 2)

/-- Round-half-to-even of the fraction `a / b` (`b > 0`): the integer nearest
to `a / b`, ties going to the even integer. -/
def rheFrac (a : ℤ) (b : ℕ) : ℤ :=
  let f := Int.fdiv a b
  let r := a - f * b
  if 2 * r < b then f
  else if (b : ℤ) < 2 * r then f + 1
  else if f % 2 = 0 then f else f + 1

/-- Decides `2 ^ k ≤ (a / b) * 2 ^ e` for naturals `a, b ≥ 1` using only
integer comparisons. -/
def pow2LE (a b : ℕ) (e k : ℤ) : Bool :=
  if 0 ≤ e - k then a * 2 ^ (e - k).toNat ≥ b else a ≥ b * 2 ^ (k - e).toNat

/-- Floor of the base-2 logarithm of `(a / b) * 2 ^ e` for `a, b ≥ 1`. -/
def flog2 (a b : ℕ) (e : ℤ) : ℤ :=
  let e0 : ℤ := (nbits 1024 a : ℤ) - (nbits 1024 b : ℤ) + e
  if pow2LE a b e e0 then e0 else e0 - 1

/-- Values of the Rust `f32` type (IEEE-754 binary32), as used throughout
`src/vec3.rs`.  A finite nonzero value `num m e` denotes `m * 2 ^ e`; the
operations below only ever construct it with `m` odd, so structural equality
coincides with value equality on their results. -/
inductive F32 where
  | nan
  | inf (neg : Bool)
  | zero (neg : Bool)
  | num (m : ℤ) (e : ℤ)
deriving DecidableEq

/-- Strips factors of two from `m`, putting a nonzero dyadic `m * 2 ^ e` into
its odd-mantissa normal form (fuel-based division loop). -/
def canonAux : ℕ → ℤ → ℤ → F32
  | 0, m, e => .num m e
  | f+1, m, e => if m % 2 = 0 then canonAux f (m / 2) (e + 1) else .num m e

/-- Normal form of a nonzero dyadic `m * 2 ^ e` (mantissas here are below
`2 ^ 64`, so fuel 64 always suffices). -/
def canon (m e : ℤ) : F32 := canonAux 64 m e

/-- Rounds the exact rational `(a / b) * 2 ^ e` (with `b > 0`) to the nearest
binary32 value, ties to even — the rounding every IEEE-754 binary32 operation
applies to its exact result.  Handles underflow to signed zero, subnormals and
overflow to infinity. -/
def roundF32 (a : ℤ) (b : ℕ) (e : ℤ) : F32 :=
  if a = 0 then .zero false
  else
    let neg := a < 0
    let lg := flog2 a.natAbs b e
    let s : ℤ := if lg ≤ -127 then -149 else lg - 23
    let a2 : ℤ := if 0 ≤ e - s then a * 2 ^ (e - s).toNat else a
    let b2 : ℕ := if 0 ≤ e - s then b else b * 2 ^ (s - e).toNat
    let n := rheFrac a2 b2
    if n = 0 then .zero neg
    else if pow2LE n.natAbs 1 s 128 then .inf neg
    else canon n s

/-- Negation of a binary32 value (Rust unary `-` on `f32`): flips the sign. -/
def F32.fneg : F32 → F32
  | .nan => .nan
  | .inf s => .inf !s
  | .zero s => .zero !s
  | .num m e => .num (-m) e

/-- Tests for the NaN value. -/
def F32.isNaN : F32 → Bool
  | .nan => true
  | _ => false

/-- Tests for an infinity or NaN. -/
def F32.infOrNaN : F32 → Bool
  | .nan => true
  | .inf _ => true
  | _ => false

/-- Addition on binary32 (Rust `+` on `f32`): the exact sum, rounded to
nearest even; `∞ + (-∞) = NaN`, `(+0) + (-0) = +0`. -/
def F32.add : F32 → F32 → F32
  | .nan, _ => .nan
  | _, .nan => .nan
  | .inf s1, .inf s2 => if s1 = s2 then .inf s1 else .nan
  | .inf s, _ => .inf s
  | _, .inf s => .inf s
  | .zero s1, .zero s2 => if s1 = s2 then .zero s1 else .zero false
  | .zero _, .num m e => .num m e
  | .num m e, .zero _ => .num m e
  | .num m1 e1, .num m2 e2 =>
      let e := min e1 e2
      roundF32 (m1 * 2 ^ (e1 - e).toNat + m2 * 2 ^ (e2 - e).toNat) 1 e

/-- Subtraction on binary32 (Rust `-` on `f32`): `a - b = a + (-b)` exactly,
as in IEEE-754. -/
def F32.sub (a b : F32) : F32 := a.add b.fneg

/-- Multiplication on binary32 (Rust `*` on `f32`): the exact product, rounded
to nearest even; `∞ * 0 = NaN`; the sign is the xor of the operand signs. -/
def F32.mul : F32 → F32 → F32
  | .nan, _ => .nan
  | _, .nan => .nan
  | .inf s1, .inf s2 => .inf (xor s1 s2)
  | .inf _, .zero _ => .nan
  | .zero _, .inf _ => .nan
  | .inf s, .num m _ => .inf (xor s (decide (m < 0)))
  | .num m _, .inf s => .inf (xor (decide (m < 0)) s)
  | .zero s1, .zero s2 => .zero (xor s1 s2)
  | .zero s, .num m _ => .zero (xor s (decide (m < 0)))
  | .num m _, .zero s => .zero (xor (decide (m < 0)) s)
  | .num m1 e1, .num m2 e2 => roundF32 (m1 * m2) 1 (e1 + e2)

/-- Division on binary32 (Rust `/` on `f32`): the exact quotient, rounded to
nearest even; a finite nonzero value divided by zero is a signed infinity,
`0 / 0`, `∞ / ∞` are NaN. -/
def F32.div : F32 → F32 → F32
  | .nan, _ => .nan
  | _, .nan => .nan
  | .inf _, .inf _ => .nan
  | .inf s1, .zero s2 => .inf (xor s1 s2)
  | .inf s, .num m _ => .inf (xor s (decide (m < 0)))
  | .zero s1, .inf s2 => .zero (xor s1 s2)
  | .zero _, .zero _ => nan
  | .zero s, .num m _ => .zero (xor s (decide (m < 0)))
  | .num m _, .inf s => .zero (xor (decide (m < 0)) s)
  | .num m _, .zero s => .inf (xor (decide (m < 0)) s)
  | .num m1 e1, .num m2 e2 =>
      roundF32 (if m2 < 0 then -m1 else m1) m2.natAbs (e1 - e2)

/-- Floor of the square root of a natural number below `2 ^ 64` (bitwise
descent, kernel-evaluable). -/
def isqrtStep (n acc : ℕ) (k : ℕ) : ℕ :=
  let c := acc + 2 ^ k
  if c * c ≤ n then c else acc

/-- Integer square root by binary digit descent (exact floor for `n < 2 ^ 64`). -/
def isqrtN (n : ℕ) : ℕ := ((List.range 32).reverse).foldl (isqrtStep n) 0

/-- Square root on binary32 (Rust `f32::sqrt`): correctly rounded per
IEEE-754; NaN on negative inputs, `sqrt (±0) = ±0`, `sqrt (+∞) = +∞`.  For a
positive `m * 2 ^ e` the result mantissa is found by integer square root on
the value rescaled into `[2 ^ 46, 2 ^ 48)`. -/
def F32.fsqrt : F32 → F32
  | .nan => .nan
  | .inf true => .nan
  | .inf false => .inf false
  | .zero s => .zero s
  | .num m e =>
      if m < 0 then .nan
      else
        let lg : ℤ := (nbits 1024 m.natAbs : ℤ) - 1 + e
        let s : ℤ := Int.fdiv lg 2 - 23
        let tn : ℕ := if 0 ≤ e - 2 * s then m.natAbs * 2 ^ (e - 2 * s).toNat else m.natAbs
        let td : ℕ := if 0 ≤ e - 2 * s then 1 else 2 ^ (2 * s - e).toNat
        let n0 := isqrtN (tn / td)
        let n : ℕ := if 4 * tn < (2 * n0 + 1) ^ 2 * td then n0 else n0 + 1
        canon n s

/-- Dyadic equality test `m1 * 2 ^ e1 = m2 * 2 ^ e2`. -/
def dyEq (m1 e1 m2 e2 : ℤ) : Bool :=
  let e := min e1 e2
  m1 * 2 ^ (e1 - e).toNat = m2 * 2 ^ (e2 - e).toNat

/-- Dyadic order test `m1 * 2 ^ e1 ≤ m2 * 2 ^ e2`. -/
def dyLe (m1 e1 m2 e2 : ℤ) : Bool :=
  let e := min e1 e2
  m1 * 2 ^ (e1 - e).toNat ≤ m2 * 2 ^ (e2 - e).toNat

/-- Equality comparison on binary32 (Rust `==` on `f32`, `PartialEq`): NaN
compares equal to nothing (itself included); `-0.0 == +0.0`. -/
def F32.feq : F32 → F32 → Bool
  | .nan, _ => false
  | _, .nan => false
  | .inf s1, .inf s2 => s1 = s2
  | .inf _, _ => false
  | _, .inf _ => false
  | .zero _, .zero _ => true
  | .zero _, .num m _ => m = 0
  | .num m _, .zero _ => m = 0
  | .num m1 e1, .num m2 e2 => dyEq m1 e1 m2 e2

/-- Order comparison on binary32, meaningful on non-NaN arguments (NaN
compares below nothing and above nothing, as in IEEE `<=`). -/
def F32.fle : F32 → F32 → Bool
  | .nan, _ => false
  | _, .nan => false
  | .inf s1, .inf s2 => s1 || !s2
  | .inf s, _ => s
  | _, .inf s => !s
  | .zero _, .zero _ => true
  | .zero _, .num m _ => 0 ≤ m
  | .num m _, .zero _ => m ≤ 0
  | .num m1 e1, .num m2 e2 => dyLe m1 e1 m2 e2

/-- Rust `f32::min`: if one argument is NaN the other argument is returned,
otherwise the smaller of the two. -/
def F32.fmin (a b : F32) : F32 :=
  if a.isNaN then b else if b.isNaN then a else if a.fle b then a else b

/-- Rust `f32::max`: if one argument is NaN the other argument is returned,
otherwise the larger of the two. -/
def F32.fmax (a b : F32) : F32 :=
  if a.isNaN then b else if b.isNaN then a else if a.fle b then b else a

/-- Rust `as u8` cast from `f32` (used in `to_draw`): NaN and negative values
go to 0, the value is truncated toward zero and saturated into `[0, 255]`. -/
def F32.toU8 : F32 → ℕ
  | .nan => 0
  | .inf true => 0
  | .inf false => 255
  | .zero _ => 0
  | .num m e =>
      if m < 0 then 0
      else min 255 (if 0 ≤ e then m.natAbs * 2 ^ e.toNat else m.natAbs / 2 ^ (-e).toNat)

/-- Rust `usize as f32` conversion (round to nearest even), used for the loop
indices and dimensions in `to_draw`. -/
def natToF32 (n : ℕ) : F32 := roundF32 n 1 0

/-- Embedding of the Rust struct `Vec3` (`src/vec3.rs`): three `f32`
components `x`, `y`, `z`. -/
structure Vec3 where
  x : F32
  y : F32
  z : F32
deriving DecidableEq

/-- Component-wise addition of two vectors: the `impl Add for &Vec3` that
`impl_binary_operations!(Vec3 Add add +)` generates; all the value/reference
operand permutations forward to it. -/
def Vec3.add (a b : Vec3) : Vec3 := ⟨a.x.add b.x, a.y.add b.y, a.z.add b.z⟩

/-- Component-wise subtraction (`impl_binary_operations!(Vec3 Sub sub -)`). -/
def Vec3.sub (a b : Vec3) : Vec3 := ⟨a.x.sub b.x, a.y.sub b.y, a.z.sub b.z⟩

/-- Component-wise product (`impl_binary_operations!(Vec3 Mul mul *)`). -/
def Vec3.mul (a b : Vec3) : Vec3 := ⟨a.x.mul b.x, a.y.mul b.y, a.z.mul b.z⟩

/-- Component-wise quotient (`impl_binary_operations!(Vec3 Div div /)`). -/
def Vec3.div (a b : Vec3) : Vec3 := ⟨a.x.div b.x, a.y.div b.y, a.z.div b.z⟩

/-- Scalar on the right: the macro's `impl Add<f32> for &Vec3`, which computes
`self.x + rhs` on each component. -/
def Vec3.addVS (v : Vec3) (s : F32) : Vec3 := ⟨v.x.add s, v.y.add s, v.z.add s⟩

/-- Scalar on the right for `-`: each component is `self.x - rhs`. -/
def Vec3.subVS (v : Vec3) (s : F32) : Vec3 := ⟨v.x.sub s, v.y.sub s, v.z.sub s⟩

/-- Scalar on the right for `*`: each component is `self.x * rhs`. -/
def Vec3.mulVS (v : Vec3) (s : F32) : Vec3 := ⟨v.x.mul s, v.y.mul s, v.z.mul s⟩

/-- Scalar on the right for `/`: each component is `self.x / rhs`. -/
def Vec3.divVS (v : Vec3) (s : F32) : Vec3 := ⟨v.x.div s, v.y.div s, v.z.div s⟩

/-- Scalar on the left: the macro's `impl Add<Vec3> for f32` evaluates
`&rhs + self`, i.e. it swaps the operands and reuses the scalar-on-the-right
implementation. -/
def Vec3.addSV (s : F32) (v : Vec3) : Vec3 := v.addVS s

/-- Scalar on the left for `-`: `self - rhs` is evaluated as `&rhs - self`. -/
def Vec3.subSV (s : F32) (v : Vec3) : Vec3 := v.subVS s

/-- Scalar on the left for `*`: evaluated as `&rhs * self`. -/
def Vec3.mulSV (s : F32) (v : Vec3) : Vec3 := v.mulVS s

/-- Scalar on the left for `/`: `self / rhs` is evaluated as `&rhs / self`. -/
def Vec3.divSV (s : F32) (v : Vec3) : Vec3 := v.divVS s

/-- Embedding of `Vec3::len_squared`: `x*x + y*y + z*z`, left associated. -/
def Vec3.len_squared (v : Vec3) : F32 :=
  ((v.x.mul v.x).add (v.y.mul v.y)).add (v.z.mul v.z)

/-- Embedding of `Vec3::len`: `self.len_squared().sqrt()`. -/
def Vec3.len (v : Vec3) : F32 := v.len_squared.fsqrt

/-- Embedding of `Vec3::normalize`: `self / self.len()`, the `Vec3 / f32`
component-wise division by the length. -/
def Vec3.normalize (v : Vec3) : Vec3 := v.divVS v.len

/-- Embedding of `Vec3::min`: component-wise `f32::min`. -/
def Vec3.min (a b : Vec3) : Vec3 := ⟨a.x.fmin b.x, a.y.fmin b.y, a.z.fmin b.z⟩

/-- Embedding of `Vec3::max`: component-wise `f32::max`. -/
def Vec3.max (a b : Vec3) : Vec3 := ⟨a.x.fmax b.x, a.y.fmax b.y, a.z.fmax b.z⟩

/-- Derived `PartialEq` for `Vec3`: component-wise `f32` equality. -/
def Vec3.veq (a b : Vec3) : Bool := a.x.feq b.x && a.y.feq b.y && a.z.feq b.z

/-- Embedding of the Rust struct `Pixel` (`src/main.rs`): three `u8` channels,
modelled as naturals (the program only ever stores values ≤ 255). -/
structure Pixel where
  r : ℕ
  g : ℕ
  b : ℕ
deriving DecidableEq

/-- Embedding of `Pixel::default()` (derived `Default`): all channels zero. -/
def Pixel.default : Pixel := ⟨0, 0, 0⟩

/-- Embedding of the Rust struct `Image` (`src/main.rs`): the pixel grid and
the stored `height` and `width` fields. -/
structure Image where
  pixels : List (List Pixel)
  height : ℕ
  width : ℕ

/-- Embedding of `Image::new(height, width)`: `height` rows of `width` default
pixels. -/
def Image.new (height width : ℕ) : Image :=
  { pixels := (List.range height).map fun _ => (List.range width).map fun _ => Pixel.default
    height := height
    width := width }

/-- Embedding of `Image::new_assign(height, width, pix_init)`: row `row` is
`(0..width).map(|col| pix_init(row, col))`, rows in order `0..height`. -/
def Image.new_assign (height width : ℕ) (pix_init : ℕ → ℕ → Pixel) : Image :=
  { pixels := (List.range height).map fun row => (List.range width).map fun col => pix_init row col
    height := height
    width := width }

/-- Observation helper: the pixel stored at `(row, col)`, with a default out
of range. -/
def Image.cell (img : Image) (row col : ℕ) : Pixel :=
  (img.pixels.getD row []).getD col Pixel.default

/-- Embedding of the `f32` literal `259.999` in `to_draw` (`src/main.rs`):
the decimal `259999/1000` rounded to the nearest binary32. -/
def factor : F32 := roundF32 259999 1000 0

/-- Embedding of `to_draw(width, height)` (`src/main.rs`): builds the gradient
image.  Note the call site passes `width` as `new_assign`'s first parameter —
which `new_assign` names `height` — exactly as the Rust source does. -/
def to_draw (width height : ℕ) : Image :=
  Image.new_assign width height fun i j =>
    { r := (factor.mul ((natToF32 i).div (natToF32 (width - 1)))).toU8
      g := (factor.mul ((natToF32 j).div (natToF32 (height - 1)))).toU8
      b := 0 }

/-- Embedding of the `{:>3}` format used by `Display for Ppm<'_, Pixel>`:
decimal digits, right-aligned with spaces to width 3. -/
def pad3 (n : ℕ) : String :=
  let s := Nat.repr n
  String.mk (List.replicate (3 - s.length) ' ') ++ s

/-- Embedding of `Display for Ppm<'_, Pixel>`: `"{:>3} {:>3} {:>3}"` applied
to the three channels. -/
def ppmPixel (p : Pixel) : String :=
  pad3 p.r ++ " " ++ pad3 p.g ++ " " ++ pad3 p.b

/-- Embedding of `Display for Ppm<'_, Image>`: the three header lines (`P3`,
`width height`, `255`), then one line per pixel, rows top to bottom, pixels
within a row left to right. -/
def ppmImage (img : Image) : String :=
  "P3\n" ++ Nat.repr img.width ++ " " ++ Nat.repr img.height ++ "\n" ++ "255\n" ++
    String.join (img.pixels.map fun row => String.join (row.map fun p => ppmPixel p ++ "\n"))

/-- Row-major enumeration of the cells of a grid with `height` rows and
`width` columns: `(0,0), (0,1), …` — the order in which `new_assign` invokes
its initializer. -/
def rowMajor (height width : ℕ) : List (ℕ × ℕ) :=
  (List.range height).flatMap fun row => (List.range width).map fun col => (row, col)

/-- Statement-side rendering of the claim formula `round(259.999 * i/(W-1))`:
exact rational arithmetic, rounded to the nearest integer. -/
def specRound (i w : ℕ) : ℤ := round ((259999 : ℚ) / 1000 * i / (w - 1))

/-- Exact rational value of a binary32 datum (0 for NaN and the infinities;
only used on finite values). -/
def F32.val : F32 → ℚ
  | .num m e => (m : ℚ) * (2:ℚ)^e
  | _ => 0

/-- Range predicate used in the amended normalization claim: the component is
a (signed) zero, or a finite value whose magnitude lies between `2^-30` and
`2^30` — far from both overflow and underflow of every intermediate of the
length computation. -/
def inRange (x : F32) : Prop :=
  (∃ s, x = F32.zero s) ∨
    ∃ m e, x = F32.num m e ∧ m.natAbs ≤ 16777216 ∧
      (2:ℚ)^(-30 : ℤ) ≤ |F32.val x| ∧ |F32.val x| ≤ (2:ℚ)^(30 : ℤ)

/-- Lower relative-accuracy factor `1 - 2^-24` of a single binary32 rounding. -/
def aF : ℚ := 16777215 / 16777216

/-- Upper relative-accuracy factor `1 + 2^-24` of a single binary32 rounding. -/
def bF : ℚ := 16777217 / 16777216

/-- Approximation relation used in the normalization accuracy proof: the
binary32 datum `x` is either (positive) zero with ideal value `v = 0`, or a
finite positive value with bounded mantissa whose exact value lies within
the relative window `[lo * v, hi * v]` around the ideal value `v`. -/
def Approx (x : F32) (v lo hi : ℚ) : Prop :=
  ((∃ s, x = F32.zero s) ∧ v = 0) ∨
    ∃ m e, x = F32.num m e ∧ m.natAbs ≤ 16777216 ∧ 0 < v ∧
      lo * v ≤ F32.val x ∧ F32.val x ≤ hi * v

/-! Helper lemmas shared between several results. -/

/-- Cell lookup in a grid built by `new_assign` returns the initializer's
value at that cell. -/
theorem cell_new_assign {h w : ℕ} {f : ℕ → ℕ → Pixel} {r c : ℕ}
    (hr : r < h) (hc : c < w) : (Image.new_assign h w f).cell r c = f r c := by
  have hlen : r < (((List.range h).map fun row =>
      (List.range w).map fun col => f row col)).length := by simpa using hr
  unfold Image.new_assign Image.cell
  rw [List.getD_eq_getElem _ _ hlen, List.getElem_map, List.getElem_range]
  rw [List.getD_eq_getElem _ _ (by simpa using hc), List.getElem_map, List.getElem_range]

/-- Commutativity of binary32 addition as a function on values (the exact sum
is symmetric, and all special cases are symmetric). -/
theorem F32.add_comm (a b : F32) : a.add b = b.add a := by
  cases a <;> cases b <;>
    first
      | rfl
      | (simp only [F32.add]; split_ifs <;> simp_all)
      | (simp only [F32.add]; rw [Int.min_comm]; congr 1; ring)

/-- Commutativity of binary32 multiplication as a function on values. -/
theorem F32.mul_comm (a b : F32) : a.mul b = b.mul a := by
  cases a <;> cases b <;>
    first
      | rfl
      | (simp only [F32.mul]; rw [Bool.xor_comm])
      | (simp only [F32.mul]; congr 1 <;> ring)

/-- Reflexivity of the IEEE `==` on every non-NaN value. -/
theorem F32.feq_refl (a : F32) (h : a.isNaN = false) : a.feq a = true := by
  cases a <;> simp_all [F32.feq, F32.isNaN, dyEq]

/-- Scalar-level NaN behaviour of `f32::min` / `f32::max`: one NaN argument is
dropped, and a NaN result forces both arguments NaN. -/
theorem fminmax_nan (u v : F32) :
    (u.isNaN = true → v.isNaN = false → u.fmin v = v ∧ u.fmax v = v) ∧
    (u.isNaN = false → v.isNaN = true → u.fmin v = u ∧ u.fmax v = u) ∧
    ((u.fmin v).isNaN = true ∨ (u.fmax v).isNaN = true →
      u.isNaN = true ∧ v.isNaN = true) := by
  refine ⟨fun hu hv => ?_, fun hu hv => ?_, fun h => ?_⟩
  · simp [F32.fmin, F32.fmax, hu, hv]
  · simp [F32.fmin, F32.fmax, hu, hv]
  · by_cases hu : u.isNaN = true
    · by_cases hv : v.isNaN = true
      · exact ⟨hu, hv⟩
      · simp only [Bool.not_eq_true] at hv
        simp [F32.fmin, F32.fmax, hu, hv] at h
    · simp only [Bool.not_eq_true] at hu
      by_cases hv : v.isNaN = true
      · simp [F32.fmin, F32.fmax, hu, hv] at h
      · simp only [Bool.not_eq_true] at hv
        simp [F32.fmin, F32.fmax, hu, hv] at h
        rcases h with h | h <;> split_ifs at h <;> simp_all

/-- Row-major cell enumeration is the list product of the two ranges. -/
theorem rowMajor_eq_product (h w : ℕ) :
    rowMajor h w = (List.range h).product (List.range w) := rfl

/-! Correctness of the building blocks of the binary32 rounding function,
leading to the standard relative-error bound for round-to-nearest. -/

/-- Sufficient fuel makes `nbits` the exact bit length: `2 ^ nbits n ≤ 2 * n`
and `n < 2 ^ nbits n`. -/
theorem nbits_spec : ∀ (f n : ℕ), 0 < n → n < 2^f →
    2 ^ nbits f n ≤ 2 * n ∧ n < 2 ^ nbits f n := by
  intro f
  induction f with
  | zero => intro n hn hlt; omega
  | succ f ih =>
    intro n hn hlt
    rw [nbits]
    rw [if_neg (by omega : ¬ n = 0)]
    by_cases h1 : n = 1
    · subst h1
      have h0 : nbits f 0 = 0 := by cases f <;> rfl
      simp [h0]
    · have hn2 : 0 < n / 2 := by omega
      have hlt2 : n / 2 < 2^f := by
        rw [Nat.div_lt_iff_lt_mul (by norm_num)]
        calc n < 2^(f+1) := hlt
        _ = 2^f * 2 := by rw [Nat.pow_succ]
      obtain ⟨ha, hb⟩ := ih (n / 2) hn2 hlt2
      have hp : 2 ^ (1 + nbits f (n / 2)) = 2 * 2 ^ nbits f (n / 2) := by
        rw [Nat.pow_add, Nat.pow_one]
      constructor
      · rw [hp]; omega
      · rw [hp]; omega

/-- Correctness of `pow2LE`: it decides `2 ^ k ≤ (a / b) * 2 ^ e`. -/
theorem pow2LE_spec (a b : ℕ) (hb : 0 < b) (e k : ℤ) :
    pow2LE a b e k = true ↔ (2:ℚ)^k ≤ (a : ℚ) / (b : ℚ) * (2:ℚ)^e := by
  have hb0 : (0:ℚ) < b := by exact_mod_cast hb
  have h2 : (2:ℚ) ≠ 0 := by norm_num
  rw [div_mul_eq_mul_div, le_div_iff hb0]
  unfold pow2LE
  split_ifs with h
  · have he : (2:ℚ)^e = (2:ℚ)^(e-k) * (2:ℚ)^k := by
      rw [← zpow_add₀ h2, sub_add_cancel]
    have hnat : ((2:ℚ))^(e-k) = ((2 ^ (e - k).toNat : ℕ) : ℚ) := by
      push_cast
      rw [← zpow_natCast (2:ℚ) (e-k).toNat, Int.toNat_of_nonneg h]
    rw [decide_eq_true_eq, ge_iff_le, he, ← mul_assoc,
      mul_comm ((2:ℚ)^k) (b:ℚ),
      mul_le_mul_right (zpow_pos (by norm_num : (0:ℚ) < 2) k), hnat]
    rw [show ((a:ℚ)) * ((2 ^ (e - k).toNat : ℕ) : ℚ) = ((a * 2 ^ (e - k).toNat : ℕ) : ℚ) by
      push_cast; ring]
    exact_mod_cast Iff.rfl
  · have hke : 0 ≤ k - e := by omega
    have he : (2:ℚ)^k = (2:ℚ)^(k-e) * (2:ℚ)^e := by
      rw [← zpow_add₀ h2, sub_add_cancel]
    have hnat : ((2:ℚ))^(k-e) = ((2 ^ (k - e).toNat : ℕ) : ℚ) := by
      push_cast
      rw [← zpow_natCast (2:ℚ) (k-e).toNat, Int.toNat_of_nonneg hke]
    rw [decide_eq_true_eq, ge_iff_le, he]
    rw [show ((2:ℚ)^(k-e) * (2:ℚ)^e) * b = ((2:ℚ)^(k-e) * b) * (2:ℚ)^e by ring]
    rw [mul_le_mul_right (zpow_pos (by norm_num : (0:ℚ) < 2) e), hnat]
    rw [show ((2 ^ (k - e).toNat : ℕ) : ℚ) * (b : ℚ) = ((b * 2 ^ (k - e).toNat : ℕ) : ℚ) by
      push_cast; ring]
    exact_mod_cast Iff.rfl

/-- Correctness of `flog2`: the value lies in `[2 ^ flog2, 2 ^ (flog2 + 1))`,
i.e. `flog2` is the floor of the base-2 logarithm. -/
theorem flog2_spec (a b : ℕ) (ha : 0 < a) (hb : 0 < b) (e : ℤ)
    (hfa : a < 2 ^ 1024) (hfb : b < 2 ^ 1024) :
    (2:ℚ) ^ flog2 a b e ≤ (a : ℚ) / (b : ℚ) * (2:ℚ)^e ∧
      (a : ℚ) / (b : ℚ) * (2:ℚ)^e < (2:ℚ) ^ (flog2 a b e + 1) := by
  have hb0 : (0:ℚ) < b := by exact_mod_cast hb
  have h2 : (2:ℚ) ≠ 0 := by norm_num
  have h2p : (0:ℚ) < 2 := by norm_num
  obtain ⟨ha1, ha2⟩ := nbits_spec 1024 a ha hfa
  obtain ⟨hb1, hb2⟩ := nbits_spec 1024 b hb hfb
  have hflog : flog2 a b e =
      if pow2LE a b e ((nbits 1024 a : ℤ) - (nbits 1024 b : ℤ) + e)
      then (nbits 1024 a : ℤ) - (nbits 1024 b : ℤ) + e
      else (nbits 1024 a : ℤ) - (nbits 1024 b : ℤ) + e - 1 := rfl
  obtain ⟨na, hna⟩ : ∃ n, nbits 1024 a = n := ⟨_, rfl⟩
  obtain ⟨nb, hnb⟩ : ∃ n, nbits 1024 b = n := ⟨_, rfl⟩
  rw [hna] at ha1 ha2 hflog
  rw [hnb] at hb1 hb2 hflog
  have hA1 : (2:ℚ) ^ (na : ℤ) ≤ 2 * a := by
    rw [zpow_natCast]; exact_mod_cast ha1
  have hA2 : (a:ℚ) < 2 ^ (na : ℤ) := by
    rw [zpow_natCast]; exact_mod_cast ha2
  have hB1 : (2:ℚ) ^ (nb : ℤ) ≤ 2 * b := by
    rw [zpow_natCast]; exact_mod_cast hb1
  have hB2 : (b:ℚ) < 2 ^ (nb : ℤ) := by
    rw [zpow_natCast]; exact_mod_cast hb2
  have hlow : (2:ℚ) ^ ((na : ℤ) - (nb : ℤ) + e - 1) < (a : ℚ) / (b : ℚ) * (2:ℚ)^e := by
    rw [show (na:ℤ) - nb + e - 1 = ((na:ℤ) - nb - 1) + e by ring, zpow_add₀ h2]
    apply mul_lt_mul_of_pos_right _ (zpow_pos h2p e)
    rw [div_eq_mul_inv, show ((na:ℤ) - nb - 1) = ((na:ℤ) - 1) + (-(nb:ℤ)) by ring,
      zpow_add₀ h2, zpow_neg]
    have e1 : (2:ℚ) ^ ((na : ℤ) - 1) ≤ (a : ℚ) := by
      have hhalf : (2:ℚ) ^ ((na : ℤ) - 1) * 2 = 2 ^ (na : ℤ) := by
        rw [← zpow_add_one₀ h2, sub_add_cancel]
      linarith
    have e2 : ((2:ℚ) ^ (nb : ℤ))⁻¹ < ((b : ℚ))⁻¹ := by
      rw [inv_lt_inv (by positivity) hb0]
      exact hB2
    have ha0 : (0:ℚ) < a := by exact_mod_cast ha
    exact mul_lt_mul' e1 e2 (by positivity) ha0
  have hhigh : (a : ℚ) / (b : ℚ) * (2:ℚ)^e < (2:ℚ) ^ ((na : ℤ) - (nb : ℤ) + e + 1) := by
    rw [show (na:ℤ) - nb + e + 1 = ((na:ℤ) - nb + 1) + e by ring, zpow_add₀ h2]
    apply mul_lt_mul_of_pos_right _ (zpow_pos h2p e)
    rw [div_lt_iff hb0, show ((na:ℤ) - nb + 1) = ((na:ℤ)) + (-(nb:ℤ) + 1) by ring,
      zpow_add₀ h2]
    have hq : (2:ℚ) ^ (-(nb:ℤ) + 1) * b ≥ 1 := by
      rw [show (-(nb:ℤ) + 1) = -((nb:ℤ) - 1) by ring, zpow_neg, ge_iff_le,
        ← div_eq_inv_mul, le_div_iff (by positivity)]
      have hhalf : (2:ℚ) ^ ((nb : ℤ) - 1) * 2 = 2 ^ (nb : ℤ) := by
        rw [← zpow_add_one₀ h2, sub_add_cancel]
      linarith
    have hstep : (2:ℚ) ^ (na : ℤ) * 1 ≤ 2 ^ (na : ℤ) * ((2:ℚ) ^ (-(nb:ℤ) + 1) * b) :=
      mul_le_mul_of_nonneg_left hq (le_of_lt (zpow_pos h2p _))
    rw [mul_one] at hstep
    rw [mul_assoc]
    linarith
  rw [hflog]
  split_ifs with hc
  · exact ⟨(pow2LE_spec a b hb e _).mp hc, hhigh⟩
  · have hnc : ¬ ((2:ℚ) ^ ((na : ℤ) - (nb : ℤ) + e) ≤ (a : ℚ) / (b : ℚ) * (2:ℚ)^e) :=
      fun hcon => hc ((pow2LE_spec a b hb e _).mpr hcon)
    rw [not_le] at hnc
    refine ⟨le_of_lt hlow, ?_⟩
    rw [sub_add_cancel]
    exact hnc

/-- Correctness of `rheFrac`: it returns an integer within `1/2` of the exact
fraction (the nearest integer; ties may go either way, always to the even
one, and are still within `1/2`). -/
theorem rheFrac_spec (a : ℤ) (b : ℕ) (hb : 0 < b) :
    |(rheFrac a b : ℚ) - (a : ℚ) / (b : ℚ)| ≤ 1/2 := by
  have hb0 : (0:ℚ) < b := by exact_mod_cast hb
  have hbz : (0:ℤ) < (b:ℤ) := by exact_mod_cast hb
  obtain ⟨f, hf⟩ : ∃ f, Int.fdiv a (b:ℤ) = f := ⟨_, rfl⟩
  have hfm : a - f * (b:ℤ) = Int.fmod a (b:ℤ) := by
    have h0 := Int.fdiv_add_fmod a (b:ℤ)
    rw [hf] at h0
    linarith
  have hr0 : (0:ℤ) ≤ a - f * b := by
    rw [hfm]; exact Int.fmod_nonneg' a hbz
  have hrb : a - f * (b:ℤ) < b := by
    rw [hfm]; exact Int.fmod_lt_of_pos a hbz
  have key : (a:ℚ)/b = (f:ℚ) + ((a - f*(b:ℤ) : ℤ) : ℚ)/b := by
    field_simp
  have hR0 : (0:ℚ) ≤ ((a - f*(b:ℤ) : ℤ) : ℚ) := by exact_mod_cast hr0
  simp only [rheFrac]
  rw [hf]
  split_ifs with h1 h2 h3
  · have hlt : ((a - f*(b:ℤ) : ℤ) : ℚ)/b < 1/2 := by
      rw [div_lt_iff hb0]
      have hc : ((2 * (a - f * (b:ℤ)) : ℤ) : ℚ) < ((b:ℤ) : ℚ) := by exact_mod_cast h1
      push_cast at hc ⊢
      linarith
    rw [key, show ((f:ℚ)) - ((f:ℚ) + ((a - f*(b:ℤ) : ℤ) : ℚ)/b) =
        -(((a - f*(b:ℤ) : ℤ) : ℚ)/b) by ring,
      abs_neg, abs_of_nonneg (by positivity)]
    linarith
  · have hge : (1:ℚ)/2 ≤ ((a - f*(b:ℤ) : ℤ) : ℚ)/b := by
      rw [div_le_div_iff (by norm_num) hb0]
      have hc : ((b:ℤ) : ℚ) < ((2 * (a - f * (b:ℤ)) : ℤ) : ℚ) := by exact_mod_cast h2
      push_cast at hc ⊢
      linarith
    have hlt1 : ((a - f*(b:ℤ) : ℤ) : ℚ)/b < 1 := by
      rw [div_lt_one hb0]
      exact_mod_cast hrb
    rw [key, Int.cast_add, Int.cast_one]
    rw [show ((f:ℚ) + 1) - ((f:ℚ) + ((a - f*(b:ℤ) : ℤ) : ℚ)/b) =
        1 - ((a - f*(b:ℤ) : ℤ) : ℚ)/b by ring,
      abs_of_nonneg (by linarith)]
    linarith
  · have h2R : (2 * (a - f * (b:ℤ)) : ℤ) = b := by omega
    have heq : ((a - f*(b:ℤ) : ℤ) : ℚ)/b = 1/2 := by
      rw [div_eq_iff (ne_of_gt hb0)]
      have hc : ((2 * (a - f * (b:ℤ)) : ℤ) : ℚ) = ((b:ℤ) : ℚ) := by exact_mod_cast h2R
      push_cast at hc ⊢
      linarith
    rw [key, heq, show ((f:ℚ)) - ((f:ℚ) + 1/2) = -(1/2) by ring, abs_neg,
      abs_of_pos (by norm_num : (0:ℚ) < 1/2)]
  · have h2R : (2 * (a - f * (b:ℤ)) : ℤ) = b := by omega
    have heq : ((a - f*(b:ℤ) : ℤ) : ℚ)/b = 1/2 := by
      rw [div_eq_iff (ne_of_gt hb0)]
      have hc : ((2 * (a - f * (b:ℤ)) : ℤ) : ℚ) = ((b:ℤ) : ℚ) := by exact_mod_cast h2R
      push_cast at hc ⊢
      linarith
    rw [key, heq, Int.cast_add, Int.cast_one]
    rw [show ((f:ℚ) + 1) - ((f:ℚ) + 1/2) = 1/2 by ring,
      abs_of_pos (by norm_num : (0:ℚ) < 1/2)]

/-- Value and shape of `canonAux`: stripping twos preserves the denoted
dyadic value, and the result is always a `num` with a nonzero mantissa when
the input mantissa is nonzero. -/
theorem canonAux_spec : ∀ (fuel : ℕ) (m e : ℤ), m ≠ 0 →
    ∃ m2 e2, canonAux fuel m e = F32.num m2 e2 ∧ m2 ≠ 0 ∧
      (m2 : ℚ) * (2:ℚ)^e2 = (m : ℚ) * (2:ℚ)^e ∧ m2.natAbs ≤ m.natAbs := by
  intro fuel
  induction fuel with
  | zero => intro m e hm; exact ⟨m, e, rfl, hm, rfl, le_refl _⟩
  | succ f ih =>
    intro m e hm
    rw [canonAux]
    split_ifs with hpar
    · have hdvd : (2:ℤ) ∣ m := Int.dvd_of_emod_eq_zero hpar
      have hm2 : m / 2 ≠ 0 := by
        intro hcon
        obtain ⟨c, hc⟩ := hdvd
        omega
      obtain ⟨m2, e2, hrw, hne, hval, hsz⟩ := ih (m / 2) (e + 1) hm2
      have hmm : m / 2 * 2 = m := Int.ediv_mul_cancel hdvd
      refine ⟨m2, e2, hrw, hne, ?_, ?_⟩
      · rw [hval]
        rw [zpow_add_one₀ (by norm_num : (2:ℚ) ≠ 0)]
        have hcast : ((m / 2 : ℤ) : ℚ) * 2 = (m : ℚ) := by
          have hc : ((m / 2 * 2 : ℤ) : ℚ) = ((m : ℤ) : ℚ) := by rw [hmm]
          push_cast at hc
          linarith
        linear_combination (2:ℚ)^e * hcast
      · have habs : (m / 2).natAbs * 2 = m.natAbs := by
          have := congrArg Int.natAbs hmm
          rwa [Int.natAbs_mul] at this
        omega
    · exact ⟨m, e, rfl, hm, rfl, le_refl _⟩

/-- Value and shape of `canon`. -/
theorem canon_spec (m e : ℤ) (hm : m ≠ 0) :
    ∃ m2 e2, canon m e = F32.num m2 e2 ∧ m2 ≠ 0 ∧
      (m2 : ℚ) * (2:ℚ)^e2 = (m : ℚ) * (2:ℚ)^e ∧ m2.natAbs ≤ m.natAbs :=
  canonAux_spec 64 m e hm

/-- Tail of the rounding analysis: once the value has been scaled so that its
magnitude lies in `[2^23, 2^24)`, the rounded mantissa is nonzero, there is no
overflow, and the result is a `num` within relative error `2^-24` of the exact
value `q`. -/
theorem roundTail (A2 : ℤ) (B2 : ℕ) (s : ℤ) (q : ℚ) (hB2 : 0 < B2)
    (hratio : (A2 : ℚ) / (B2 : ℚ) = q / (2:ℚ)^s)
    (hT1 : (2:ℚ)^(23:ℤ) ≤ |q| / (2:ℚ)^s)
    (hT2 : |q| / (2:ℚ)^s < (2:ℚ)^(24:ℤ))
    (hq2 : |q| < (2:ℚ)^(127 : ℤ)) :
    rheFrac A2 B2 ≠ 0 ∧ pow2LE (rheFrac A2 B2).natAbs 1 s 128 = false ∧
    ∃ m2 e2, canon (rheFrac A2 B2) s = F32.num m2 e2 ∧ m2.natAbs ≤ 16777216 ∧
      |F32.val (canon (rheFrac A2 B2) s) - q| ≤ |q| / 16777216 := by
  have h2p : (0:ℚ) < 2 := by norm_num
  have h2q : (2:ℚ) ≠ 0 := by norm_num
  have hsp : (0:ℚ) < (2:ℚ)^s := zpow_pos h2p s
  have h23 : ((2:ℚ)^(23:ℤ)) = 8388608 := by norm_num
  have h24 : ((2:ℚ)^(24:ℤ)) = 16777216 := by norm_num
  obtain ⟨n, hn⟩ : ∃ n, rheFrac A2 B2 = n := ⟨_, rfl⟩
  have hrhe : |(n : ℚ) - q / (2:ℚ)^s| ≤ 1/2 := by
    rw [← hn, ← hratio]
    exact rheFrac_spec A2 B2 hB2
  have hTabs : |q / (2:ℚ)^s| = |q| / (2:ℚ)^s := by
    rw [abs_div, abs_of_pos hsp]
  -- the rounded mantissa is at least 2^23 - 1/2 in magnitude, hence nonzero
  have hnlow : (8388608 : ℚ) - 1/2 ≤ |(n : ℚ)| := by
    have t1 : |q / (2:ℚ)^s| - |(n : ℚ)| ≤ |(n : ℚ) - q / (2:ℚ)^s| := by
      rw [abs_sub_comm]
      exact abs_sub_abs_le_abs_sub _ _
    rw [hTabs] at t1
    linarith [hT1, h23 ▸ hT1]
  have hn0 : n ≠ 0 := by
    intro hcon
    rw [hcon] at hnlow
    norm_num at hnlow
  have hnhigh : |(n : ℚ)| ≤ 16777216 + 1/2 := by
    have t1 : |(n : ℚ)| - |q / (2:ℚ)^s| ≤ |(n : ℚ) - q / (2:ℚ)^s| :=
      abs_sub_abs_le_abs_sub _ _
    rw [hTabs] at t1
    linarith [h24 ▸ hT2]
  -- 2^23 * 2^s ≤ |q| (scaled form of hT1)
  have hscale : (8388608 : ℚ) * (2:ℚ)^s ≤ |q| := by
    rw [← h23]
    calc (2:ℚ)^(23:ℤ) * (2:ℚ)^s ≤ (|q| / (2:ℚ)^s) * (2:ℚ)^s :=
        mul_le_mul_of_nonneg_right hT1 (le_of_lt hsp)
    _ = |q| := div_mul_cancel₀ _ (ne_of_gt hsp)
  -- no overflow
  have habs : ((n.natAbs : ℕ) : ℚ) = |(n : ℚ)| := by
    rw [Int.cast_natAbs, Int.cast_abs]
  -- by integrality, |n| ≤ 2^24
  have hn24 : |n| ≤ 16777216 := by
    by_contra hcon
    push_neg at hcon
    have hc : (16777217 : ℚ) ≤ ((|n| : ℤ) : ℚ) := by exact_mod_cast hcon
    rw [Int.cast_abs] at hc
    linarith
  have hnhigh2 : |(n : ℚ)| ≤ 16777216 := by
    have hc : ((|n| : ℤ) : ℚ) ≤ (16777216 : ℚ) := by exact_mod_cast hn24
    rw [Int.cast_abs] at hc
    exact hc
  have hovf : pow2LE n.natAbs 1 s 128 = false := by
    rw [Bool.eq_false_iff]
    intro hcon
    have h1 := (pow2LE_spec n.natAbs 1 (by norm_num) s 128).mp hcon
    rw [habs] at h1
    norm_num at h1
    have hL : (2:ℚ)^(127:ℤ) * 2 = 340282366920938463463374607431768211456 := by
      norm_num
    have hval : |(n : ℚ)| * (2:ℚ)^s ≤ 16777216 * (2:ℚ)^s :=
      mul_le_mul_of_nonneg_right hnhigh2 (le_of_lt hsp)
    have hq128 : (16777216 : ℚ) * (2:ℚ)^s ≤ 2 * |q| := by linarith
    linarith
  -- shape and value of the canonical form
  obtain ⟨m2, e2, hcanon, hm2, hval, hsz⟩ := canon_spec n s hn0
  have hszn : n.natAbs ≤ 16777216 := by
    have habs2 : ((n.natAbs : ℕ) : ℤ) = |n| := Int.natCast_natAbs n
    omega
  refine ⟨by rw [hn]; exact hn0, by rw [hn]; exact hovf, m2, e2, by rw [hn]; exact hcanon,
    le_trans hsz hszn, ?_⟩
  rw [hn, hcanon]
  have hvv : F32.val (F32.num m2 e2) = (m2 : ℚ) * (2:ℚ)^e2 := rfl
  rw [hvv, hval]
  -- |n * 2^s - q| = |n - q/2^s| * 2^s ≤ 2^s / 2 ≤ |q| / 2^24
  have hfactor : (n:ℚ) * (2:ℚ)^s - q = ((n:ℚ) - q / (2:ℚ)^s) * (2:ℚ)^s := by
    field_simp
  rw [hfactor, abs_mul, abs_of_pos hsp]
  have hb1 : |(n : ℚ) - q / (2:ℚ)^s| * (2:ℚ)^s ≤ (1/2) * (2:ℚ)^s :=
    mul_le_mul_of_nonneg_right hrhe (le_of_lt hsp)
  have hb2 : (1/2 : ℚ) * (2:ℚ)^s ≤ |q| / 16777216 := by
    rw [le_div_iff (by norm_num : (0:ℚ) < 16777216)]
    linarith
  linarith

/-- Main relative-error bound for binary32 rounding: a value in the normal
range (`2^-126 ≤ |q| < 2^127`) rounds to a finite nonzero float within one
half-ulp, i.e. within relative error `2^-24`. -/
theorem roundF32_spec (a : ℤ) (b : ℕ) (e : ℤ) (ha : a ≠ 0) (hb : 0 < b)
    (hfa : a.natAbs < 2 ^ 1024) (hfb : b < 2 ^ 1024)
    (q : ℚ) (hq : q = (a : ℚ) / (b : ℚ) * (2:ℚ)^e)
    (h1 : (2:ℚ)^(-126 : ℤ) ≤ |q|) (h2 : |q| < (2:ℚ)^(127 : ℤ)) :
    ∃ m2 e2, roundF32 a b e = F32.num m2 e2 ∧ m2.natAbs ≤ 16777216 ∧
      |F32.val (roundF32 a b e) - q| ≤ |q| / 16777216 := by
  have h2q : (2:ℚ) ≠ 0 := by norm_num
  have h2p : (0:ℚ) < 2 := by norm_num
  have h12 : (1:ℚ) < 2 := by norm_num
  have hb0 : (0:ℚ) < b := by exact_mod_cast hb
  have hana : 0 < a.natAbs := Int.natAbs_pos.mpr ha
  have hcast : ((a.natAbs : ℕ) : ℚ) = |(a : ℚ)| := by
    rw [Int.cast_natAbs, Int.cast_abs]
  have hqabs : |q| = (a.natAbs : ℚ) / (b : ℚ) * (2:ℚ)^e := by
    rw [hq, abs_mul, abs_div, abs_of_pos (zpow_pos h2p e), abs_of_pos hb0, hcast]
  obtain ⟨lg, hlg⟩ : ∃ l, flog2 a.natAbs b e = l := ⟨_, rfl⟩
  have hspec := flog2_spec a.natAbs b hana hb e hfa hfb
  rw [hlg, ← hqabs] at hspec
  obtain ⟨hspec1, hspec2⟩ := hspec
  have hlgub : lg ≤ 126 := by
    by_contra hcon
    push_neg at hcon
    have hge : (2:ℚ)^(127:ℤ) ≤ (2:ℚ)^lg := (zpow_le_zpow_iff_right₀ h12).mpr (by omega)
    linarith
  have hlglb : -126 ≤ lg := by
    by_contra hcon
    push_neg at hcon
    have hle : (2:ℚ)^(lg+1) ≤ (2:ℚ)^(-126:ℤ) := (zpow_le_zpow_iff_right₀ h12).mpr (by omega)
    linarith
  -- magnitude of the scaled value lies in [2^23, 2^24)
  have hT1 : (2:ℚ)^(23:ℤ) ≤ |q| / (2:ℚ)^(lg - 23) := by
    rw [le_div_iff (zpow_pos h2p _), ← zpow_add₀ h2q,
      show (23:ℤ) + (lg - 23) = lg by ring]
    exact hspec1
  have hT2 : |q| / (2:ℚ)^(lg - 23) < (2:ℚ)^(24:ℤ) := by
    rw [div_lt_iff (zpow_pos h2p _), ← zpow_add₀ h2q,
      show (24:ℤ) + (lg - 23) = lg + 1 by ring]
    exact hspec2
  simp only [roundF32]
  rw [if_neg ha, hlg, if_neg (show ¬ lg ≤ -127 by omega)]
  by_cases hdc : (0:ℤ) ≤ e - (lg - 23)
  · rw [if_pos hdc, if_pos hdc]
    have hratio : ((a * 2 ^ (e - (lg - 23)).toNat : ℤ) : ℚ) / (b : ℚ) =
        q / (2:ℚ)^(lg - 23) := by
      rw [hq]
      push_cast
      rw [show (2:ℚ) ^ ((e - (lg - 23)).toNat) = (2:ℚ)^(e - (lg - 23)) by
        rw [← zpow_natCast (2:ℚ) (e - (lg - 23)).toNat, Int.toNat_of_nonneg hdc]]
      rw [div_eq_div_iff (ne_of_gt hb0) (ne_of_gt (zpow_pos h2p (lg - 23)))]
      rw [show (a:ℚ) * (2:ℚ)^(e - (lg - 23)) * (2:ℚ)^(lg - 23) =
        (a:ℚ) * ((2:ℚ)^(e - (lg - 23)) * (2:ℚ)^(lg - 23)) by ring, ← zpow_add₀ h2q,
        show (e - (lg - 23)) + (lg - 23) = e by ring]
      field_simp
    obtain ⟨hn0, hovf, m2, e2, hcanon, hsz, herr⟩ :=
      roundTail (a * 2 ^ (e - (lg - 23)).toNat) b (lg - 23) q hb hratio hT1 hT2 h2
    rw [if_neg hn0, hovf]
    simp only [Bool.false_eq_true, if_false]
    exact ⟨m2, e2, hcanon, hsz, herr⟩
  · rw [if_neg hdc, if_neg hdc]
    have hbpos : 0 < b * 2 ^ ((lg - 23) - e).toNat := by positivity
    have hratio : ((a : ℤ) : ℚ) / ((b * 2 ^ ((lg - 23) - e).toNat : ℕ) : ℚ) =
        q / (2:ℚ)^(lg - 23) := by
      rw [hq]
      push_cast
      rw [show (2:ℚ) ^ (((lg - 23) - e).toNat) = (2:ℚ)^((lg - 23) - e) by
        rw [← zpow_natCast (2:ℚ) ((lg - 23) - e).toNat, Int.toNat_of_nonneg (by omega)]]
      rw [div_eq_div_iff (by positivity) (ne_of_gt (zpow_pos h2p (lg - 23)))]
      rw [show (a:ℚ) / (b:ℚ) * (2:ℚ)^e * ((b:ℚ) * (2:ℚ)^((lg - 23) - e)) =
        ((a:ℚ) / (b:ℚ) * (b:ℚ)) * ((2:ℚ)^e * (2:ℚ)^((lg - 23) - e)) by ring,
        div_mul_cancel₀ _ (ne_of_gt hb0), ← zpow_add₀ h2q,
        show e + ((lg - 23) - e) = lg - 23 by ring]
    obtain ⟨hn0, hovf, m2, e2, hcanon, hsz, herr⟩ :=
      roundTail a (b * 2 ^ ((lg - 23) - e).toNat) (lg - 23) q hbpos hratio hT1 hT2 h2
    rw [if_neg hn0, hovf]
    simp only [Bool.false_eq_true, if_false]
    exact ⟨m2, e2, hcanon, hsz, herr⟩

/-- Invariant of the bitwise square-root descent: starting from an
under-approximation whose next step would overshoot, the fold returns the
floor of the square root. -/
theorem isqrt_fold (n : ℕ) : ∀ (k : ℕ) (acc : ℕ), acc * acc ≤ n →
    n < (acc + 2^(k+1)) * (acc + 2^(k+1)) →
    (((List.range (k+1)).reverse).foldl (isqrtStep n) acc) *
        (((List.range (k+1)).reverse).foldl (isqrtStep n) acc) ≤ n ∧
      n < (((List.range (k+1)).reverse).foldl (isqrtStep n) acc + 1) *
        (((List.range (k+1)).reverse).foldl (isqrtStep n) acc + 1) := by
  intro k
  induction k with
  | zero =>
    intro acc h1 h2
    have hr : ((List.range 1).reverse) = [0] := rfl
    rw [hr]
    simp only [List.foldl_cons, List.foldl_nil, isqrtStep, pow_zero]
    split_ifs with hc
    · refine ⟨hc, ?_⟩
      have : acc + 2^(0+1) = acc + 1 + 1 := by norm_num
      rw [this] at h2
      exact h2
    · exact ⟨h1, not_le.mp hc⟩
  | succ k ih =>
    intro acc h1 h2
    have hr : ((List.range (k+2)).reverse) = (k+1) :: (List.range (k+1)).reverse := by
      rw [List.range_succ, List.reverse_append]
      rfl
    rw [hr]
    simp only [List.foldl_cons]
    by_cases hc : (acc + 2^(k+1)) * (acc + 2^(k+1)) ≤ n
    · have hstep : isqrtStep n acc (k+1) = acc + 2^(k+1) := by
        simp [isqrtStep, hc]
      rw [hstep]
      apply ih (acc + 2^(k+1)) hc
      have hpow : acc + 2^(k+1) + 2^(k+1) = acc + 2^(k+1+1) := by
        have : (2:ℕ)^(k+1+1) = 2^(k+1) * 2 := by rw [pow_succ]
        omega
      rw [hpow]
      exact h2
    · have hstep : isqrtStep n acc (k+1) = acc := by
        simp [isqrtStep, hc]
      rw [hstep]
      exact ih acc h1 (not_le.mp hc)

/-- The integer square root helper is exact below `2^64`. -/
theorem isqrtN_spec (n : ℕ) (h : n < 2^64) :
    isqrtN n * isqrtN n ≤ n ∧ n < (isqrtN n + 1) * (isqrtN n + 1) := by
  have h0 : (0:ℕ) * 0 ≤ n := by omega
  have h2 : n < (0 + 2^(31+1)) * (0 + 2^(31+1)) := by
    have : (0 + 2^(31+1)) * (0 + 2^(31+1)) = 2^64 := by norm_num
    omega
  exact isqrt_fold n 31 0 h0 h2

/-- Numeric core of the square-root rounding bound, lower side: if the scaled
value exceeds the midpoint condition `4t < (2n+1)^2` and `n ≥ 2^23`, then
`n^2` is within relative factor `(1 + 2^-24)^2` below `t`. -/
theorem sqrtCoreLower (t nq : ℚ) (hn : 8388608 ≤ nq) (h4t : 4*t < (2*nq+1)^2) :
    (16777216:ℚ)^2 * t < 16777217^2 * nq^2 := by
  have s1 : (0:ℚ) ≤ 16777217*nq - 8388608*(2*nq+1) := by linarith
  have s1b : (0:ℚ) ≤ 16777217*nq + 8388608*(2*nq+1) := by linarith
  have key : (8388608*(2*nq+1))^2 ≤ (16777217*nq)^2 := by nlinarith [mul_nonneg s1 s1b]
  have s2 : (16777216:ℚ)^2 * t < 70368744177664*(2*nq+1)^2 := by linarith
  have s3 : (8388608*(2*nq+1))^2 = (70368744177664:ℚ)*(2*nq+1)^2 := by ring
  have s4 : (16777217*nq)^2 = (16777217:ℚ)^2*nq^2 := by ring
  linarith

/-- Numeric core, upper side: if `(2n-1)^2 ≤ 4t` and `n ≥ 2^23`, then `n^2`
is within relative factor `(1 - 2^-24)^-2` above `t`. -/
theorem sqrtCoreUpper (t nq : ℚ) (hn : 8388608 ≤ nq) (h4t : (2*nq-1)^2 ≤ 4*t) :
    (16777215:ℚ)^2 * nq^2 ≤ 16777216^2 * t := by
  have s1 : (0:ℚ) ≤ 8388608*(2*nq-1) - 16777215*nq := by linarith
  have s1b : (0:ℚ) ≤ 8388608*(2*nq-1) + 16777215*nq := by linarith
  have key : (16777215*nq)^2 ≤ (8388608*(2*nq-1))^2 := by nlinarith [mul_nonneg s1 s1b]
  have s2 : (70368744177664:ℚ)*(2*nq-1)^2 ≤ 16777216^2 * t := by linarith
  have s3 : (8388608*(2*nq-1))^2 = (70368744177664:ℚ)*(2*nq-1)^2 := by ring
  have s4 : (16777215*nq)^2 = (16777215:ℚ)^2*nq^2 := by ring
  linarith

/-- Tail of the square-root analysis: once the value is rescaled into
`[2^46, 2^48)` as an exact fraction `tn / td`, the chosen mantissa gives a
correctly-rounded result whose square is within relative factors
`(1 ± 2^-24)^2` of the exact value `q`. -/
theorem fsqrtTail (tn td : ℕ) (s : ℤ) (q : ℚ) (htd : 0 < td)
    (hqt : (tn:ℚ)/(td:ℚ) * ((2:ℚ)^s * (2:ℚ)^s) = q)
    (ht46 : (70368744177664:ℚ) ≤ (tn:ℚ)/(td:ℚ))
    (ht48 : (tn:ℚ)/(td:ℚ) < 281474976710656) :
    ∃ m2 e2,
      canon (↑(if 4 * tn < (2 * isqrtN (tn / td) + 1) ^ 2 * td
               then isqrtN (tn / td) else isqrtN (tn / td) + 1) : ℤ) s = F32.num m2 e2 ∧
      m2.natAbs ≤ 16777216 ∧
      0 < (m2:ℚ) * (2:ℚ)^e2 ∧
      (16777216:ℚ)^2 * q ≤ 16777217^2 * ((m2:ℚ) * (2:ℚ)^e2)^2 ∧
      (16777215:ℚ)^2 * ((m2:ℚ) * (2:ℚ)^e2)^2 ≤ 16777216^2 * q := by
  have h2p : (0:ℚ) < 2 := by norm_num
  have htd0 : (0:ℚ) < td := by exact_mod_cast htd
  have hPP : (0:ℚ) < (2:ℚ)^s * (2:ℚ)^s := by positivity
  obtain ⟨N, hNdef⟩ : ∃ x, tn / td = x := ⟨_, rfl⟩
  have hfl1 : (N:ℚ) ≤ (tn:ℚ)/td := by
    rw [le_div_iff htd0]
    exact_mod_cast (hNdef ▸ Nat.div_mul_le_self tn td)
  have hub : tn < (N + 1) * td := by
    have hdm := Nat.div_add_mod tn td
    have hmlt := Nat.mod_lt tn htd
    calc tn = td * (tn/td) + tn % td := hdm.symm
    _ < td * (tn/td) + td := by omega
    _ = (tn/td + 1) * td := by ring
    _ = (N+1) * td := by rw [hNdef]
  have hfl2 : (tn:ℚ)/td < (N:ℚ) + 1 := by
    rw [div_lt_iff htd0]
    have : ((tn:ℕ):ℚ) < (((N+1) * td : ℕ):ℚ) := by exact_mod_cast hub
    push_cast at this
    linarith
  have hN46 : 70368744177664 ≤ N := by
    by_contra hcon
    push_neg at hcon
    have hle : ((N:ℚ) + 1) ≤ 70368744177664 := by
      have : (N:ℚ) + 1 ≤ ((70368744177664 : ℕ) : ℚ) := by exact_mod_cast hcon
      simpa using this
    linarith
  have hN48 : N < 281474976710656 := by
    have hq48 : (N:ℚ) < 281474976710656 := lt_of_le_of_lt hfl1 ht48
    exact_mod_cast hq48
  have hN64 : N < 2^64 := by
    have h264 : (281474976710656:ℕ) < 2^64 := by norm_num
    omega
  obtain ⟨n0, hn0def⟩ : ∃ x, isqrtN N = x := ⟨_, rfl⟩
  obtain ⟨hsq1, hsq2⟩ := isqrtN_spec N hN64
  rw [hn0def] at hsq1 hsq2
  have hn023 : 8388608 ≤ n0 := by
    by_contra hcon
    push_neg at hcon
    have hmul : (n0+1)*(n0+1) ≤ 8388608*8388608 := Nat.mul_le_mul (by omega) (by omega)
    have : N < 70368744177664 := by
      calc N < (n0+1)*(n0+1) := hsq2
      _ ≤ 8388608*8388608 := hmul
      _ = 70368744177664 := by norm_num
    omega
  have hn024 : n0 < 16777216 := by
    by_contra hcon
    push_neg at hcon
    have hmul : 16777216*16777216 ≤ n0*n0 := Nat.mul_le_mul hcon hcon
    omega
  have hq1 : ((n0:ℚ)) * n0 ≤ (tn:ℚ)/td := by
    have hc : ((n0 * n0 : ℕ):ℚ) ≤ (N:ℚ) := by exact_mod_cast hsq1
    push_cast at hc
    linarith
  have hq2 : (tn:ℚ)/td < ((n0:ℚ)+1) * ((n0:ℚ)+1) := by
    have hc : ((N:ℕ):ℚ) + 1 ≤ (((n0+1) * (n0+1) : ℕ):ℚ) := by exact_mod_cast hsq2
    push_cast at hc
    linarith
  rw [hNdef, hn0def]
  by_cases hc : 4 * tn < (2 * n0 + 1) ^ 2 * td
  · rw [if_pos hc]
    have hcq : 4 * ((tn:ℚ)/td) < (2*(n0:ℚ)+1)^2 := by
      rw [show (4:ℚ) * ((tn:ℚ)/td) = ((4*tn : ℕ):ℚ)/td by push_cast; ring,
        div_lt_iff htd0]
      exact_mod_cast hc
    have hlow := sqrtCoreLower ((tn:ℚ)/td) (n0:ℚ) (by exact_mod_cast hn023) hcq
    have hn0z : ((n0:ℕ):ℤ) ≠ 0 := by
      have : 0 < n0 := by omega
      exact_mod_cast Nat.pos_iff_ne_zero.mp this
    obtain ⟨m2, e2, hcanon, hm2ne, hval, hsz⟩ := canon_spec ((n0:ℕ):ℤ) s hn0z
    refine ⟨m2, e2, hcanon, ?_, ?_, ?_, ?_⟩
    · have : ((n0:ℕ):ℤ).natAbs = n0 := Int.natAbs_ofNat n0
      omega
    · rw [hval]
      have hn0q : (0:ℚ) < (((n0:ℕ):ℤ):ℚ) := by exact_mod_cast (by omega : 0 < n0)
      exact mul_pos hn0q (zpow_pos h2p s)
    · rw [hval, ← hqt]
      push_cast
      rw [show (16777217:ℚ) ^ 2 * ((n0:ℚ) * (2:ℚ) ^ s) ^ 2 =
          (16777217^2 * ((n0:ℚ))^2) * ((2:ℚ)^s * (2:ℚ)^s) by ring,
        show (16777216:ℚ) ^ 2 * ((tn:ℚ) / (td:ℚ) * ((2:ℚ) ^ s * (2:ℚ) ^ s)) =
          (16777216^2 * ((tn:ℚ)/(td:ℚ))) * ((2:ℚ)^s * (2:ℚ)^s) by ring]
      exact mul_le_mul_of_nonneg_right (le_of_lt hlow) (le_of_lt hPP)
    · rw [hval, ← hqt]
      push_cast
      have hstep := mul_le_mul_of_nonneg_right hq1 (le_of_lt hPP)
      have hB : (0:ℚ) ≤ ((n0:ℚ) * (n0:ℚ)) * ((2:ℚ)^s * (2:ℚ)^s) := by positivity
      rw [show (16777215:ℚ) ^ 2 * ((n0:ℚ) * (2:ℚ) ^ s) ^ 2 =
          16777215^2 * (((n0:ℚ) * (n0:ℚ)) * ((2:ℚ)^s * (2:ℚ)^s)) by ring,
        show (16777216:ℚ) ^ 2 * ((tn:ℚ) / (td:ℚ) * ((2:ℚ) ^ s * (2:ℚ) ^ s)) =
          16777216^2 * (((tn:ℚ)/(td:ℚ)) * ((2:ℚ)^s * (2:ℚ)^s)) by ring]
      linarith [hstep, hB]
  · rw [if_neg hc]
    push_neg at hc
    have hcq : (2*((n0:ℚ)+1)-1)^2 ≤ 4 * ((tn:ℚ)/td) := by
      rw [show (4:ℚ) * ((tn:ℚ)/td) = ((4*tn : ℕ):ℚ)/td by push_cast; ring,
        le_div_iff htd0]
      have hcast : (((2*n0+1)^2 * td : ℕ):ℚ) ≤ ((4*tn : ℕ):ℚ) := by exact_mod_cast hc
      push_cast at hcast ⊢
      rw [show (2*((n0:ℚ)+1)-1)^2 = (2*(n0:ℚ)+1)^2 by ring]
      linarith [hcast]
    have hup := sqrtCoreUpper ((tn:ℚ)/td) ((n0:ℚ)+1) (by
      have : (8388608:ℚ) ≤ (n0:ℚ) := by exact_mod_cast hn023
      linarith) hcq
    have hn1z : ((n0 + 1 : ℕ):ℤ) ≠ 0 := by exact_mod_cast Nat.succ_ne_zero n0
    obtain ⟨m2, e2, hcanon, hm2ne, hval, hsz⟩ := canon_spec ((n0 + 1 : ℕ):ℤ) s hn1z
    refine ⟨m2, e2, hcanon, ?_, ?_, ?_, ?_⟩
    · have : ((n0 + 1:ℕ):ℤ).natAbs = n0 + 1 := Int.natAbs_ofNat (n0+1)
      omega
    · rw [hval]
      have hn0q : (0:ℚ) < (((n0 + 1:ℕ):ℤ):ℚ) := by exact_mod_cast Nat.succ_pos n0
      exact mul_pos hn0q (zpow_pos h2p s)
    · rw [hval, ← hqt]
      push_cast
      have hstep := mul_le_mul_of_nonneg_right (le_of_lt hq2) (le_of_lt hPP)
      have hB : (0:ℚ) ≤ (((n0:ℚ)+1) * ((n0:ℚ)+1)) * ((2:ℚ)^s * (2:ℚ)^s) := by positivity
      rw [show (16777217:ℚ) ^ 2 * (((n0:ℚ) + 1) * (2:ℚ) ^ s) ^ 2 =
          16777217^2 * ((((n0:ℚ)+1) * ((n0:ℚ)+1)) * ((2:ℚ)^s * (2:ℚ)^s)) by ring,
        show (16777216:ℚ) ^ 2 * ((tn:ℚ) / (td:ℚ) * ((2:ℚ) ^ s * (2:ℚ) ^ s)) =
          16777216^2 * (((tn:ℚ)/(td:ℚ)) * ((2:ℚ)^s * (2:ℚ)^s)) by ring]
      linarith [hstep, hB]
    · rw [hval, ← hqt]
      push_cast
      have hstep := mul_le_mul_of_nonneg_right hup (le_of_lt hPP)
      rw [show (16777215:ℚ) ^ 2 * (((n0:ℚ) + 1) * (2:ℚ) ^ s) ^ 2 =
          (16777215^2 * ((n0:ℚ)+1)^2) * ((2:ℚ)^s * (2:ℚ)^s) by ring,
        show (16777216:ℚ) ^ 2 * ((tn:ℚ) / (td:ℚ) * ((2:ℚ) ^ s * (2:ℚ) ^ s)) =
          (16777216^2 * ((tn:ℚ)/(td:ℚ))) * ((2:ℚ)^s * (2:ℚ)^s) by ring]
      exact hstep

/-- Correctness of binary32 square root on positive finite inputs: the result
is a positive finite value whose square is within relative factors
`(1 ± 2^-24)^2` of the exact input value. -/
theorem fsqrt_spec (m e : ℤ) (hm : 0 < m) (hmf : m.natAbs < 2 ^ 1024)
    (q : ℚ) (hq : q = (m : ℚ) * (2:ℚ)^e) :
    ∃ m2 e2, F32.fsqrt (F32.num m e) = F32.num m2 e2 ∧
      m2.natAbs ≤ 16777216 ∧
      0 < (m2:ℚ) * (2:ℚ)^e2 ∧
      (16777216:ℚ)^2 * q ≤ 16777217^2 * ((m2:ℚ) * (2:ℚ)^e2)^2 ∧
      (16777215:ℚ)^2 * ((m2:ℚ) * (2:ℚ)^e2)^2 ≤ 16777216^2 * q := by
  have h2p : (0:ℚ) < 2 := by norm_num
  have h2q : (2:ℚ) ≠ 0 := by norm_num
  have h12 : (1:ℚ) < 2 := by norm_num
  have hmabs : ((m.natAbs : ℕ) : ℤ) = m := Int.natAbs_of_nonneg (le_of_lt hm)
  have hmpos : 0 < m.natAbs := Int.natAbs_pos.mpr (ne_of_gt hm)
  obtain ⟨ha1, ha2⟩ := nbits_spec 1024 m.natAbs hmpos hmf
  simp only [F32.fsqrt]
  rw [if_neg (not_lt.mpr (le_of_lt hm))]
  obtain ⟨nbm, hnbm⟩ : ∃ x, nbits 1024 m.natAbs = x := ⟨_, rfl⟩
  rw [hnbm] at ha1 ha2 ⊢
  obtain ⟨s, hs⟩ : ∃ x, Int.fdiv ((nbm : ℤ) - 1 + e) 2 - 23 = x := ⟨_, rfl⟩
  rw [hs]
  have hfdm := Int.fdiv_add_fmod ((nbm : ℤ) - 1 + e) 2
  have hr0 : 0 ≤ Int.fmod ((nbm : ℤ) - 1 + e) 2 := Int.fmod_nonneg' _ (by norm_num)
  have hr1 : Int.fmod ((nbm : ℤ) - 1 + e) 2 < 2 := Int.fmod_lt_of_pos _ (by norm_num)
  obtain ⟨rr, hrr⟩ : ∃ x, Int.fmod ((nbm : ℤ) - 1 + e) 2 = x := ⟨_, rfl⟩
  rw [hrr] at hr0 hr1 hfdm
  have hds : 2 * (s + 23) + rr = (nbm : ℤ) - 1 + e := by omega
  have hm1 : (2:ℚ) ^ ((nbm:ℕ):ℤ) ≤ 2 * (m:ℚ) := by
    rw [zpow_natCast]
    have hc : ((2^nbm : ℕ):ℚ) ≤ ((2 * m.natAbs : ℕ):ℚ) := by exact_mod_cast ha1
    push_cast at hc
    have hmq : ((m.natAbs : ℕ):ℚ) = (m:ℚ) := by
      rw [Int.cast_natAbs, Int.cast_abs]
      exact abs_of_pos (by exact_mod_cast hm)
    rw [hmq] at hc
    exact hc
  have hm2q : (m:ℚ) < 2 ^ ((nbm:ℕ):ℤ) := by
    rw [zpow_natCast]
    have hc : ((m.natAbs : ℕ):ℚ) < ((2^nbm : ℕ):ℚ) := by exact_mod_cast ha2
    push_cast at hc
    have hmq : ((m.natAbs : ℕ):ℚ) = (m:ℚ) := by
      rw [Int.cast_natAbs, Int.cast_abs]
      exact abs_of_pos (by exact_mod_cast hm)
    rw [hmq] at hc
    exact hc
  have hmlb : (2:ℚ)^((nbm:ℤ)-1) ≤ (m:ℚ) := by
    have hhalf : (2:ℚ)^((nbm:ℤ)-1) * 2 = 2^((nbm:ℤ)) := by
      rw [← zpow_add_one₀ h2q, sub_add_cancel]
    linarith [hm1]
  have hdpos : (0:ℚ) < (2:ℚ)^(e - 2*s) := zpow_pos h2p _
  have hq46 : (2:ℚ)^(46:ℤ) ≤ (m:ℚ) * (2:ℚ)^(e - 2*s) := by
    have step : (2:ℚ)^((nbm:ℤ)-1) * (2:ℚ)^(e-2*s) ≤ (m:ℚ) * (2:ℚ)^(e-2*s) :=
      mul_le_mul_of_nonneg_right hmlb (le_of_lt hdpos)
    have heq : (2:ℚ)^((nbm:ℤ)-1) * (2:ℚ)^(e-2*s) = (2:ℚ)^(46 + rr) := by
      rw [← zpow_add₀ h2q]
      congr 1
      omega
    have hmono : (2:ℚ)^(46:ℤ) ≤ (2:ℚ)^(46 + rr) :=
      (zpow_le_zpow_iff_right₀ h12).mpr (by omega)
    linarith
  have hq48 : (m:ℚ) * (2:ℚ)^(e - 2*s) < (2:ℚ)^(48:ℤ) := by
    have step : (m:ℚ) * (2:ℚ)^(e-2*s) < (2:ℚ)^((nbm:ℤ)) * (2:ℚ)^(e-2*s) :=
      mul_lt_mul_of_pos_right hm2q hdpos
    have heq : (2:ℚ)^((nbm:ℤ)) * (2:ℚ)^(e-2*s) = (2:ℚ)^(47 + rr) := by
      rw [← zpow_add₀ h2q]
      congr 1
      omega
    have hmono : (2:ℚ)^(47 + rr) ≤ (2:ℚ)^(48:ℤ) :=
      (zpow_le_zpow_iff_right₀ h12).mpr (by omega)
    linarith
  have hqt0 : (m:ℚ) * (2:ℚ)^(e - 2*s) * ((2:ℚ)^s * (2:ℚ)^s) = q := by
    rw [hq, mul_assoc, ← zpow_add₀ h2q s s, ← zpow_add₀ h2q (e - 2*s) (s + s),
      show e - 2*s + (s + s) = e by ring]
  have hnum46 : (70368744177664:ℚ) = (2:ℚ)^(46:ℤ) := by norm_num
  have hnum48 : (281474976710656:ℚ) = (2:ℚ)^(48:ℤ) := by norm_num
  by_cases hdc : (0:ℤ) ≤ e - 2 * s
  · rw [if_pos hdc, if_pos hdc]
    have hTeq : ((m.natAbs * 2 ^ (e - 2*s).toNat : ℕ):ℚ) / ((1:ℕ):ℚ) =
        (m:ℚ) * (2:ℚ)^(e - 2*s) := by
      push_cast
      rw [div_one]
      rw [show (2:ℚ)^((e - 2*s).toNat) = (2:ℚ)^(e - 2*s) by
        rw [← zpow_natCast (2:ℚ) (e - 2*s).toNat, Int.toNat_of_nonneg hdc]]
      have hmq : ((m.natAbs : ℕ):ℚ) = (m:ℚ) := by
        rw [Int.cast_natAbs, Int.cast_abs]
        exact abs_of_pos (by exact_mod_cast hm)
      rw [hmq]
    exact fsqrtTail (m.natAbs * 2 ^ (e - 2*s).toNat) 1 s q (by norm_num)
      (by rw [hTeq]; exact hqt0)
      (by rw [hTeq, hnum46]; exact hq46)
      (by rw [hTeq, hnum48]; exact hq48)
  · rw [if_neg hdc, if_neg hdc]
    have hTeq : ((m.natAbs : ℕ):ℚ) / ((2 ^ (2*s - e).toNat : ℕ):ℚ) =
        (m:ℚ) * (2:ℚ)^(e - 2*s) := by
      push_cast
      rw [show (2:ℚ)^((2*s - e).toNat) = (2:ℚ)^(2*s - e) by
        rw [← zpow_natCast (2:ℚ) (2*s - e).toNat, Int.toNat_of_nonneg (by omega)]]
      have hmq : ((m.natAbs : ℕ):ℚ) = (m:ℚ) := by
        rw [Int.cast_natAbs, Int.cast_abs]
        exact abs_of_pos (by exact_mod_cast hm)
      rw [hmq, div_eq_iff (ne_of_gt (zpow_pos h2p (2*s - e))), mul_assoc,
        ← zpow_add₀ h2q, show e - 2*s + (2*s - e) = 0 by ring, zpow_zero, mul_one]
    exact fsqrtTail m.natAbs (2 ^ (2*s - e).toNat) s q (by positivity)
      (by rw [hTeq]; exact hqt0)
      (by rw [hTeq, hnum46]; exact hq46)
      (by rw [hTeq, hnum48]; exact hq48)

/-- Turns the relative rounding error into a two-sided window on the
absolute value of the result. -/
theorem err_window {v q : ℚ} (h : |v - q| ≤ |q| / 16777216) :
    aF * |q| ≤ |v| ∧ |v| ≤ bF * |q| := by
  have h1 := abs_sub_abs_le_abs_sub v q
  have h2 := abs_sub_abs_le_abs_sub q v
  rw [abs_sub_comm] at h2
  constructor
  · have : aF * |q| = |q| - |q| / 16777216 := by rw [aF]; ring
    linarith
  · have : bF * |q| = |q| + |q| / 16777216 := by rw [bF]; ring
    linarith

/-- Signed version of the rounding window for a positive ideal value. -/
theorem err_window_pos {v q : ℚ} (hq : 0 < q) (h : |v - q| ≤ |q| / 16777216) :
    aF * q ≤ v ∧ v ≤ bF * q := by
  rw [abs_of_pos hq] at h
  obtain ⟨h1, h2⟩ := abs_le.mp h
  constructor
  · have : aF * q = q - q / 16777216 := by rw [aF]; ring
    linarith
  · have : bF * q = q + q / 16777216 := by rw [bF]; ring
    linarith

/-- Squaring a binary32 value: `x * x` approximates the exact square within
one rounding, for a zero or a bounded-mantissa value of moderate magnitude. -/
theorem sq_approx (x : F32)
    (h : (∃ s, x = F32.zero s) ∨
         ∃ m e, x = F32.num m e ∧ m.natAbs ≤ 16777216 ∧
           (2:ℚ)^(-63 : ℤ) ≤ |F32.val x| ∧ |F32.val x| ≤ (2:ℚ)^(63 : ℤ)) :
    Approx (x.mul x) ((F32.val x) ^ 2) aF bF := by
  rcases h with ⟨s, rfl⟩ | ⟨m, e, rfl, hm, hlo, hhi⟩
  · left
    refine ⟨⟨false, ?_⟩, by simp [F32.val]⟩
    simp [F32.mul]
  · right
    have hXne : F32.val (F32.num m e) ≠ 0 := by
      intro h0
      rw [h0] at hlo
      simp at hlo
      have : (0:ℚ) < (2:ℚ)^(-63 : ℤ) := by positivity
      linarith
    have hmne : m ≠ 0 := by
      intro h0
      apply hXne
      simp [F32.val, h0]
    have hq2pos : 0 < (F32.val (F32.num m e)) ^ 2 := by positivity
    have hmulEq : (F32.num m e).mul (F32.num m e) = roundF32 (m * m) 1 (e + e) := rfl
    have hsq126 : ((2:ℚ)^(-63 : ℤ)) ^ 2 = (2:ℚ)^(-126 : ℤ) := by
      rw [← zpow_natCast ((2:ℚ)^(-63 : ℤ)) 2, ← zpow_mul]
      norm_num
    have hsq126' : ((2:ℚ)^(63 : ℤ)) ^ 2 = (2:ℚ)^(126 : ℤ) := by
      rw [← zpow_natCast ((2:ℚ)^(63 : ℤ)) 2, ← zpow_mul]
      norm_num
    obtain ⟨m2, e2, heq, hsz, herr⟩ := roundF32_spec (m * m) 1 (e + e)
      (mul_ne_zero hmne hmne) one_pos
      (by
        rw [Int.natAbs_mul]
        calc m.natAbs * m.natAbs ≤ 16777216 * 16777216 := Nat.mul_le_mul hm hm
        _ < 2 ^ 1024 := by norm_num)
      (by norm_num)
      ((F32.val (F32.num m e)) ^ 2)
      (by
        simp only [F32.val]
        push_cast
        rw [zpow_add₀ (by norm_num : (2:ℚ) ≠ 0)]
        ring)
      (by
        rw [abs_of_pos hq2pos, ← hsq126, ← sq_abs (F32.val (F32.num m e))]
        exact pow_le_pow_left (by positivity) hlo 2)
      (by
        rw [abs_of_pos hq2pos, ← sq_abs (F32.val (F32.num m e))]
        calc |F32.val (F32.num m e)| ^ 2 ≤ ((2:ℚ)^(63 : ℤ)) ^ 2 :=
          pow_le_pow_left (abs_nonneg _) hhi 2
        _ = (2:ℚ)^(126 : ℤ) := hsq126'
        _ < (2:ℚ)^(127 : ℤ) := by norm_num)
    obtain ⟨hv1, hv2⟩ := err_window_pos hq2pos herr
    exact ⟨m2, e2, by rw [hmulEq, heq], hsz, hq2pos,
      by rw [hmulEq]; exact hv1, by rw [hmulEq]; exact hv2⟩

/-- Adding two approximated binary32 values: the rounded sum of two values,
each within a relative window of its ideal value, lies within the window
widened by one more rounding factor on each side. -/
theorem add_approx (xf yf : F32) (vx vy lo hi : ℚ)
    (hax : Approx xf vx lo hi) (hay : Approx yf vy lo hi)
    (hlo : 1/2 ≤ lo) (hhi1 : 1 ≤ hi) (hhi : hi ≤ 2)
    (hvx0 : vx = 0 ∨ (2:ℚ)^(-125 : ℤ) ≤ vx) (hvy0 : vy = 0 ∨ (2:ℚ)^(-125 : ℤ) ≤ vy)
    (hvxh : vx ≤ (2:ℚ)^(124 : ℤ)) (hvyh : vy ≤ (2:ℚ)^(124 : ℤ)) :
    Approx (xf.add yf) (vx + vy) (lo * aF) (hi * bF) := by
  have haF0 : (0:ℚ) < aF := by rw [aF]; norm_num
  have haF1 : aF ≤ 1 := by rw [aF]; norm_num
  have hbF1 : (1:ℚ) ≤ bF := by rw [bF]; norm_num
  have hbF2 : bF ≤ 2 := by rw [bF]; norm_num
  have hlo0 : (0:ℚ) < lo := by linarith
  have hhi0 : (0:ℚ) < hi := by linarith
  have h2Q : (0:ℚ) < 2 := by norm_num
  have h2ne : (2:ℚ) ≠ 0 := by norm_num
  rcases hax with ⟨⟨s1, hx1⟩, hvx⟩ | ⟨m1, e1, hx1, hm1, hvxp, hw1, hw2⟩ <;>
    rcases hay with ⟨⟨s2, hy1⟩, hvy⟩ | ⟨m2, e2, hy1, hm2, hvyp, hw3, hw4⟩
  · left
    subst hx1 hy1
    constructor
    · by_cases hs : s1 = s2
      · exact ⟨s1, by simp [F32.add, hs]⟩
      · exact ⟨false, by simp [F32.add, hs]⟩
    · rw [hvx, hvy]; ring
  · right
    subst hx1 hy1
    have haddz : (F32.zero s1).add (F32.num m2 e2) = F32.num m2 e2 := rfl
    refine ⟨m2, e2, haddz, hm2, by rw [hvx, zero_add]; exact hvyp, ?_, ?_⟩
    · rw [haddz, hvx, zero_add]
      nlinarith [mul_nonneg (mul_nonneg hlo0.le hvyp.le) (sub_nonneg.mpr haF1)]
    · rw [haddz, hvx, zero_add]
      nlinarith [mul_nonneg (mul_nonneg hhi0.le hvyp.le) (sub_nonneg.mpr hbF1)]
  · right
    subst hx1 hy1
    have haddz : (F32.num m1 e1).add (F32.zero s2) = F32.num m1 e1 := rfl
    refine ⟨m1, e1, haddz, hm1, by rw [hvy, add_zero]; exact hvxp, ?_, ?_⟩
    · rw [haddz, hvy, add_zero]
      nlinarith [mul_nonneg (mul_nonneg hlo0.le hvxp.le) (sub_nonneg.mpr haF1)]
    · rw [haddz, hvy, add_zero]
      nlinarith [mul_nonneg (mul_nonneg hhi0.le hvxp.le) (sub_nonneg.mpr hbF1)]
  · right
    subst hx1 hy1
    have hX0 : 0 < F32.val (F32.num m1 e1) := lt_of_lt_of_le (mul_pos hlo0 hvxp) hw1
    have hY0 : 0 < F32.val (F32.num m2 e2) := lt_of_lt_of_le (mul_pos hlo0 hvyp) hw3
    have hvx125 : (2:ℚ)^(-125 : ℤ) ≤ vx := by
      rcases hvx0 with h | h
      · rw [h] at hvxp; exact absurd hvxp (lt_irrefl 0)
      · exact h
    have hvy125 : (2:ℚ)^(-125 : ℤ) ≤ vy := by
      rcases hvy0 with h | h
      · rw [h] at hvyp; exact absurd hvyp (lt_irrefl 0)
      · exact h
    have hXdef : F32.val (F32.num m1 e1) = (m1:ℚ) * (2:ℚ)^e1 := rfl
    have hYdef : F32.val (F32.num m2 e2) = (m2:ℚ) * (2:ℚ)^e2 := rfl
    have hp1 : (0:ℚ) < (2:ℚ)^e1 := zpow_pos h2Q e1
    have hp2 : (0:ℚ) < (2:ℚ)^e2 := zpow_pos h2Q e2
    have hX126 : (2:ℚ)^(-126 : ℤ) ≤ F32.val (F32.num m1 e1) := by
      calc (2:ℚ)^(-126 : ℤ) = (1/2) * (2:ℚ)^(-125 : ℤ) := by
            rw [show (-126 : ℤ) = (-1) + (-125) by ring, zpow_add₀ h2ne]
            norm_num
      _ ≤ lo * vx := mul_le_mul hlo hvx125 (by positivity) hlo0.le
      _ ≤ _ := hw1
    have hY126 : (2:ℚ)^(-126 : ℤ) ≤ F32.val (F32.num m2 e2) := by
      calc (2:ℚ)^(-126 : ℤ) = (1/2) * (2:ℚ)^(-125 : ℤ) := by
            rw [show (-126 : ℤ) = (-1) + (-125) by ring, zpow_add₀ h2ne]
            norm_num
      _ ≤ lo * vy := mul_le_mul hlo hvy125 (by positivity) hlo0.le
      _ ≤ _ := hw3
    have hX125 : F32.val (F32.num m1 e1) ≤ (2:ℚ)^(125 : ℤ) := by
      calc F32.val (F32.num m1 e1) ≤ hi * vx := hw2
      _ ≤ 2 * (2:ℚ)^(124 : ℤ) := mul_le_mul hhi hvxh hvxp.le (by norm_num)
      _ = (2:ℚ)^(125 : ℤ) := by
            rw [show (125 : ℤ) = 1 + 124 by ring, zpow_add₀ h2ne]
            norm_num
    have hY125 : F32.val (F32.num m2 e2) ≤ (2:ℚ)^(125 : ℤ) := by
      calc F32.val (F32.num m2 e2) ≤ hi * vy := hw4
      _ ≤ 2 * (2:ℚ)^(124 : ℤ) := mul_le_mul hhi hvyh hvyp.le (by norm_num)
      _ = (2:ℚ)^(125 : ℤ) := by
            rw [show (125 : ℤ) = 1 + 124 by ring, zpow_add₀ h2ne]
            norm_num
    have hm1Q : (0:ℚ) < (m1:ℚ) := by
      rw [hXdef] at hX0
      nlinarith [hp1, hX0]
    have hm2Q : (0:ℚ) < (m2:ℚ) := by
      rw [hYdef] at hY0
      nlinarith [hp2, hY0]
    have hm1i : 1 ≤ m1 := by exact_mod_cast hm1Q
    have hm2i : 1 ≤ m2 := by exact_mod_cast hm2Q
    have hm1b : m1 ≤ 16777216 := by omega
    have hm2b : m2 ≤ 16777216 := by omega
    have he1u : e1 ≤ 125 := by
      have h1 : (2:ℚ)^e1 ≤ (2:ℚ)^(125 : ℤ) := by
        calc (2:ℚ)^e1 = 1 * (2:ℚ)^e1 := (one_mul _).symm
        _ ≤ (m1:ℚ) * (2:ℚ)^e1 := mul_le_mul_of_nonneg_right (by exact_mod_cast hm1i) hp1.le
        _ ≤ (2:ℚ)^(125 : ℤ) := hXdef ▸ hX125
      exact (zpow_le_zpow_iff_right₀ (by norm_num : (1:ℚ) < 2)).mp h1
    have he2u : e2 ≤ 125 := by
      have h1 : (2:ℚ)^e2 ≤ (2:ℚ)^(125 : ℤ) := by
        calc (2:ℚ)^e2 = 1 * (2:ℚ)^e2 := (one_mul _).symm
        _ ≤ (m2:ℚ) * (2:ℚ)^e2 := mul_le_mul_of_nonneg_right (by exact_mod_cast hm2i) hp2.le
        _ ≤ (2:ℚ)^(125 : ℤ) := hYdef ▸ hY125
      exact (zpow_le_zpow_iff_right₀ (by norm_num : (1:ℚ) < 2)).mp h1
    have he1l : (-150 : ℤ) ≤ e1 := by
      have h1 : (2:ℚ)^(24 : ℤ) * (2:ℚ)^(-150 : ℤ) ≤ (2:ℚ)^(24 : ℤ) * (2:ℚ)^e1 := by
        calc (2:ℚ)^(24 : ℤ) * (2:ℚ)^(-150 : ℤ) = (2:ℚ)^(-126 : ℤ) := by
              rw [← zpow_add₀ h2ne]; norm_num
        _ ≤ (m1:ℚ) * (2:ℚ)^e1 := hXdef ▸ hX126
        _ ≤ (2:ℚ)^(24 : ℤ) * (2:ℚ)^e1 := by
              apply mul_le_mul_of_nonneg_right _ hp1.le
              rw [show ((2:ℚ)^(24 : ℤ) = 16777216) by norm_num]
              exact_mod_cast hm1b
      have h2 := le_of_mul_le_mul_left h1 (zpow_pos h2Q 24)
      exact (zpow_le_zpow_iff_right₀ (by norm_num : (1:ℚ) < 2)).mp h2
    have he2l : (-150 : ℤ) ≤ e2 := by
      have h1 : (2:ℚ)^(24 : ℤ) * (2:ℚ)^(-150 : ℤ) ≤ (2:ℚ)^(24 : ℤ) * (2:ℚ)^e2 := by
        calc (2:ℚ)^(24 : ℤ) * (2:ℚ)^(-150 : ℤ) = (2:ℚ)^(-126 : ℤ) := by
              rw [← zpow_add₀ h2ne]; norm_num
        _ ≤ (m2:ℚ) * (2:ℚ)^e2 := hYdef ▸ hY126
        _ ≤ (2:ℚ)^(24 : ℤ) * (2:ℚ)^e2 := by
              apply mul_le_mul_of_nonneg_right _ hp2.le
              rw [show ((2:ℚ)^(24 : ℤ) = 16777216) by norm_num]
              exact_mod_cast hm2b
      have h2 := le_of_mul_le_mul_left h1 (zpow_pos h2Q 24)
      exact (zpow_le_zpow_iff_right₀ (by norm_num : (1:ℚ) < 2)).mp h2
    obtain ⟨A, hA⟩ : ∃ x,
        m1 * 2 ^ (e1 - min e1 e2).toNat + m2 * 2 ^ (e2 - min e1 e2).toNat = x := ⟨_, rfl⟩
    have haddEq : (F32.num m1 e1).add (F32.num m2 e2) = roundF32 A 1 (min e1 e2) := by
      rw [← hA]; rfl
    have hApos : 0 < A := by
      rw [← hA]
      have t1 : (0:ℤ) < m1 * 2 ^ (e1 - min e1 e2).toNat :=
        mul_pos (by omega) (pow_pos (by norm_num) _)
      have t2 : (0:ℤ) < m2 * 2 ^ (e2 - min e1 e2).toNat :=
        mul_pos (by omega) (pow_pos (by norm_num) _)
      omega
    have hAbound : A ≤ 2 ^ 300 := by
      rw [← hA]
      have hs1 : (2:ℤ) ^ (e1 - min e1 e2).toNat ≤ 2 ^ 275 := by
        apply pow_le_pow_right (by norm_num : (1:ℤ) ≤ 2)
        omega
      have hs2 : (2:ℤ) ^ (e2 - min e1 e2).toNat ≤ 2 ^ 275 := by
        apply pow_le_pow_right (by norm_num : (1:ℤ) ≤ 2)
        omega
      have b1 : m1 * 2 ^ (e1 - min e1 e2).toNat ≤ 16777216 * 2 ^ 275 :=
        mul_le_mul hm1b hs1 (pow_nonneg (by norm_num) _) (by norm_num)
      have b2 : m2 * 2 ^ (e2 - min e1 e2).toNat ≤ 16777216 * 2 ^ 275 :=
        mul_le_mul hm2b hs2 (pow_nonneg (by norm_num) _) (by norm_num)
      calc m1 * 2 ^ (e1 - min e1 e2).toNat + m2 * 2 ^ (e2 - min e1 e2).toNat
          ≤ 16777216 * 2 ^ 275 + 16777216 * 2 ^ 275 := add_le_add b1 b2
      _ ≤ 2 ^ 300 := by norm_num
    have hfa : A.natAbs < 2 ^ 1024 := by
      have h1 : (A.natAbs : ℤ) ≤ (2:ℤ) ^ 300 := by
        rw [Int.natAbs_of_nonneg hApos.le]; exact hAbound
      have h2 : A.natAbs ≤ 2 ^ 300 := by exact_mod_cast h1
      calc A.natAbs ≤ 2 ^ 300 := h2
      _ < 2 ^ 1024 := Nat.pow_lt_pow_right (by norm_num) (by norm_num)
    have hsplit : ∀ (mm ee : ℤ), min e1 e2 ≤ ee →
        ((mm:ℚ) * (2:ℚ)^((ee - min e1 e2).toNat)) * (2:ℚ)^(min e1 e2) =
          (mm:ℚ) * (2:ℚ)^ee := by
      intro mm ee hee
      rw [show ((2:ℚ)^((ee - min e1 e2).toNat) = (2:ℚ)^(ee - min e1 e2)) from by
        rw [← zpow_natCast (2:ℚ) (ee - min e1 e2).toNat, Int.toNat_of_nonneg (by omega)]]
      rw [mul_assoc, ← zpow_add₀ h2ne, sub_add_cancel]
    have hqEq : ((A:ℤ):ℚ)/((1:ℕ):ℚ) * (2:ℚ)^(min e1 e2) =
        F32.val (F32.num m1 e1) + F32.val (F32.num m2 e2) := by
      rw [← hA]
      push_cast
      rw [div_one, add_mul, hsplit m1 e1 (min_le_left _ _), hsplit m2 e2 (min_le_right _ _)]
      rfl
    have hsum0 : 0 < F32.val (F32.num m1 e1) + F32.val (F32.num m2 e2) := by linarith
    obtain ⟨m3, e3, heq, hsz, herr⟩ := roundF32_spec A 1 (min e1 e2)
      (by omega) one_pos hfa (by norm_num)
      (F32.val (F32.num m1 e1) + F32.val (F32.num m2 e2)) hqEq.symm
      (by
        rw [abs_of_pos hsum0]
        calc (2:ℚ)^(-126 : ℤ) ≤ F32.val (F32.num m1 e1) := hX126
        _ ≤ _ := by linarith)
      (by
        rw [abs_of_pos hsum0]
        have h126 : (2:ℚ)^(125 : ℤ) + (2:ℚ)^(125 : ℤ) = (2:ℚ)^(126 : ℤ) := by
          rw [show (126 : ℤ) = 125 + 1 by ring, zpow_add₀ h2ne, zpow_one]
          ring
        have hlt : (2:ℚ)^(126 : ℤ) < (2:ℚ)^(127 : ℤ) :=
          (zpow_lt_zpow_iff_right₀ (by norm_num : (1:ℚ) < 2)).mpr (by norm_num)
        calc F32.val (F32.num m1 e1) + F32.val (F32.num m2 e2)
            ≤ (2:ℚ)^(125 : ℤ) + (2:ℚ)^(125 : ℤ) := add_le_add hX125 hY125
        _ = (2:ℚ)^(126 : ℤ) := h126
        _ < (2:ℚ)^(127 : ℤ) := hlt)
    obtain ⟨hv1, hv2⟩ := err_window_pos hsum0 herr
    refine ⟨m3, e3, by rw [haddEq, heq], hsz, by linarith, ?_, ?_⟩
    · rw [haddEq]
      have h1 : lo * (vx + vy) ≤ F32.val (F32.num m1 e1) + F32.val (F32.num m2 e2) := by
        rw [mul_add]; exact add_le_add hw1 hw3
      calc lo * aF * (vx + vy) = aF * (lo * (vx + vy)) := by ring
      _ ≤ aF * (F32.val (F32.num m1 e1) + F32.val (F32.num m2 e2)) :=
        mul_le_mul_of_nonneg_left h1 haF0.le
      _ ≤ _ := hv1
    · rw [haddEq]
      have h1 : F32.val (F32.num m1 e1) + F32.val (F32.num m2 e2) ≤ hi * (vx + vy) := by
        rw [mul_add]; exact add_le_add hw2 hw4
      calc F32.val (roundF32 A 1 (min e1 e2))
          ≤ bF * (F32.val (F32.num m1 e1) + F32.val (F32.num m2 e2)) := hv2
      _ ≤ bF * (hi * (vx + vy)) := mul_le_mul_of_nonneg_left h1 (by linarith)
      _ = hi * bF * (vx + vy) := by ring

/-- Dividing a component by the (positive, moderate) length value: the
quotient is a zero for a zero component, and otherwise a finite value within
one rounding of the exact quotient, with magnitude far from overflow and
underflow. -/
theorem div_approx (x L : F32) (mL eL : ℤ) (hL : L = F32.num mL eL)
    (hmL : mL.natAbs ≤ 16777216) (hVL0 : 0 < F32.val L)
    (hVLlo : (2:ℚ)^(-31 : ℤ) ≤ F32.val L) (hVLhi : F32.val L ≤ (2:ℚ)^(32 : ℤ))
    (hx : inRange x) :
    ((∃ s, x.div L = F32.zero s) ∧ F32.val x = 0) ∨
    (∃ m e, x.div L = F32.num m e ∧ m.natAbs ≤ 16777216 ∧
      aF * (2:ℚ)^(-62 : ℤ) ≤ |F32.val (x.div L)| ∧
      |F32.val (x.div L)| ≤ bF * (2:ℚ)^(61 : ℤ) ∧
      |F32.val (x.div L) - F32.val x / F32.val L| ≤
        |F32.val x / F32.val L| / 16777216) := by
  have h2Q : (0:ℚ) < 2 := by norm_num
  have h2ne : (2:ℚ) ≠ 0 := by norm_num
  have haF0 : (0:ℚ) < aF := by rw [aF]; norm_num
  have hbF0 : (0:ℚ) < bF := by rw [bF]; norm_num
  subst hL
  have hpL : (0:ℚ) < (2:ℚ)^eL := zpow_pos h2Q eL
  have hVLdef : F32.val (F32.num mL eL) = (mL:ℚ) * (2:ℚ)^eL := rfl
  have hmLQ : (0:ℚ) < (mL:ℚ) := by
    rw [hVLdef] at hVL0
    nlinarith [hpL, hVL0]
  have hmLi : 0 < mL := by exact_mod_cast hmLQ
  have hmLnot : ¬ mL < 0 := by omega
  rcases hx with ⟨s, rfl⟩ | ⟨mx, ex, rfl, hmx, hXlo, hXhi⟩
  · left
    have hdec : (decide (mL < 0)) = false := decide_eq_false hmLnot
    refine ⟨⟨s, ?_⟩, by simp [F32.val]⟩
    show F32.zero (xor s (decide (mL < 0))) = F32.zero s
    rw [hdec, Bool.xor_false]
  · right
    have hXne : F32.val (F32.num mx ex) ≠ 0 := by
      intro h0
      rw [h0] at hXlo
      simp at hXlo
      have : (0:ℚ) < (2:ℚ)^(-30 : ℤ) := by positivity
      linarith
    have hmxne : mx ≠ 0 := by
      intro h0
      exact hXne (by simp [F32.val, h0])
    have hdivEq : (F32.num mx ex).div (F32.num mL eL) =
        roundF32 (if mL < 0 then -mx else mx) mL.natAbs (ex - eL) := rfl
    rw [if_neg hmLnot] at hdivEq
    have hbpos : 0 < mL.natAbs := Int.natAbs_pos.mpr (by omega)
    have hmLcast : ((mL.natAbs : ℕ) : ℚ) = (mL:ℚ) := by
      rw [Int.cast_natAbs, Int.cast_abs]
      exact abs_of_pos (by exact_mod_cast hmLi)
    have hqdef : F32.val (F32.num mx ex) / F32.val (F32.num mL eL) =
        (mx:ℚ)/((mL.natAbs : ℕ):ℚ) * (2:ℚ)^(ex - eL) := by
      rw [hmLcast, hVLdef, zpow_sub₀ h2ne]
      show (mx:ℚ) * (2:ℚ)^ex / ((mL:ℚ) * (2:ℚ)^eL) = _
      ring
    have habsq : |F32.val (F32.num mx ex) / F32.val (F32.num mL eL)| =
        |F32.val (F32.num mx ex)| / F32.val (F32.num mL eL) := by
      rw [abs_div, abs_of_pos hVL0]
    have hq62 : (2:ℚ)^(-62 : ℤ) ≤
        |F32.val (F32.num mx ex) / F32.val (F32.num mL eL)| := by
      rw [habsq]
      calc (2:ℚ)^(-62 : ℤ) = (2:ℚ)^(-30 : ℤ) / (2:ℚ)^(32 : ℤ) := by
            rw [← zpow_sub₀ h2ne]; norm_num
      _ ≤ |F32.val (F32.num mx ex)| / F32.val (F32.num mL eL) :=
            div_le_div (abs_nonneg _) hXlo hVL0 hVLhi
    have hq61 : |F32.val (F32.num mx ex) / F32.val (F32.num mL eL)| ≤
        (2:ℚ)^(61 : ℤ) := by
      rw [habsq]
      calc |F32.val (F32.num mx ex)| / F32.val (F32.num mL eL)
          ≤ (2:ℚ)^(30 : ℤ) / (2:ℚ)^(-31 : ℤ) :=
            div_le_div (by positivity) hXhi (by positivity) hVLlo
      _ = (2:ℚ)^(61 : ℤ) := by rw [← zpow_sub₀ h2ne]; norm_num
    obtain ⟨m2, e2, heq, hsz, herr⟩ := roundF32_spec mx mL.natAbs (ex - eL)
      hmxne hbpos
      (lt_of_le_of_lt hmx (by norm_num))
      (lt_of_le_of_lt hmL (by norm_num))
      (F32.val (F32.num mx ex) / F32.val (F32.num mL eL)) hqdef
      (le_trans (by
        have : ((-126 : ℤ)) ≤ (-62 : ℤ) := by norm_num
        exact (zpow_le_zpow_iff_right₀ (by norm_num : (1:ℚ) < 2)).mpr this) hq62)
      (lt_of_le_of_lt hq61
        ((zpow_lt_zpow_iff_right₀ (by norm_num : (1:ℚ) < 2)).mpr (by norm_num)))
    obtain ⟨hb1, hb2⟩ := err_window herr
    refine ⟨m2, e2, by rw [hdivEq, heq], hsz, ?_, ?_, by rw [hdivEq]; exact herr⟩
    · rw [hdivEq]
      calc aF * (2:ℚ)^(-62 : ℤ)
          ≤ aF * |F32.val (F32.num mx ex) / F32.val (F32.num mL eL)| :=
            mul_le_mul_of_nonneg_left hq62 haF0.le
      _ ≤ _ := hb1
    · rw [hdivEq]
      calc |F32.val (roundF32 mx mL.natAbs (ex - eL))|
          ≤ bF * |F32.val (F32.num mx ex) / F32.val (F32.num mL eL)| := hb2
      _ ≤ bF * (2:ℚ)^(61 : ℤ) := mul_le_mul_of_nonneg_left hq61 hbF0.le

/-- Widening the relative window of an approximation. -/
theorem approx_weaken (x : F32) (v lo hi lo2 hi2 : ℚ) (h : Approx x v lo hi)
    (hlo : lo2 ≤ lo) (hhi : hi ≤ hi2) : Approx x v lo2 hi2 := by
  rcases h with ⟨hz, hv⟩ | ⟨m, e, h1, h2, h3, h4, h5⟩
  · exact Or.inl ⟨hz, hv⟩
  · refine Or.inr ⟨m, e, h1, h2, h3, ?_, ?_⟩
    · exact le_trans (mul_le_mul_of_nonneg_right hlo h3.le) h4
    · exact le_trans h5 (mul_le_mul_of_nonneg_right hhi h3.le)

/-- Shape and magnitude facts about a component after division by the length:
input for the second squaring pass and for the following additions. -/
theorem post_div_facts (N : F32)
    (h : (∃ s, N = F32.zero s) ∨
         (∃ m e, N = F32.num m e ∧ m.natAbs ≤ 16777216 ∧
           aF * (2:ℚ)^(-62 : ℤ) ≤ |F32.val N| ∧ |F32.val N| ≤ bF * (2:ℚ)^(61 : ℤ))) :
    ((∃ s, N = F32.zero s) ∨
      ∃ m e, N = F32.num m e ∧ m.natAbs ≤ 16777216 ∧
        (2:ℚ)^(-63 : ℤ) ≤ |F32.val N| ∧ |F32.val N| ≤ (2:ℚ)^(63 : ℤ)) ∧
    ((F32.val N)^2 = 0 ∨ (2:ℚ)^(-125 : ℤ) ≤ (F32.val N)^2) ∧
    (F32.val N)^2 ≤ (2:ℚ)^(123 : ℤ) := by
  have h2ne : (2:ℚ) ≠ 0 := by norm_num
  rcases h with ⟨s, hs⟩ | ⟨m, e, h1, h2, h3, h4⟩
  · refine ⟨Or.inl ⟨s, hs⟩, Or.inl ?_, ?_⟩
    · rw [hs]; simp [F32.val]
    · rw [hs]; simp [F32.val]; positivity
  · have hlo63 : (2:ℚ)^(-63 : ℤ) ≤ aF * (2:ℚ)^(-62 : ℤ) := by
      calc (2:ℚ)^(-63 : ℤ) = (1/2) * (2:ℚ)^(-62 : ℤ) := by
            rw [show (-63 : ℤ) = (-1) + (-62) by ring, zpow_add₀ h2ne]
            norm_num
      _ ≤ aF * (2:ℚ)^(-62 : ℤ) := by
            apply mul_le_mul_of_nonneg_right _ (by positivity)
            rw [aF]; norm_num
    have hhi63 : bF * (2:ℚ)^(61 : ℤ) ≤ (2:ℚ)^(63 : ℤ) := by
      calc bF * (2:ℚ)^(61 : ℤ) ≤ 2 * (2:ℚ)^(61 : ℤ) := by
            apply mul_le_mul_of_nonneg_right _ (by positivity)
            rw [bF]; norm_num
      _ ≤ (2:ℚ)^(63 : ℤ) := by
            rw [show ((2:ℚ)^(63 : ℤ) = 4 * (2:ℚ)^(61 : ℤ)) from by
              rw [show (63 : ℤ) = 2 + 61 by ring, zpow_add₀ h2ne]; norm_num]
            nlinarith [zpow_pos (by norm_num : (0:ℚ) < 2) (61 : ℤ)]
    refine ⟨Or.inr ⟨m, e, h1, h2, le_trans hlo63 h3, le_trans h4 hhi63⟩, Or.inr ?_, ?_⟩
    · calc (2:ℚ)^(-125 : ℤ) = (1/2) * ((2:ℚ)^(-62 : ℤ))^2 := by
            rw [← zpow_natCast ((2:ℚ)^(-62 : ℤ)) 2, ← zpow_mul,
              show ((-62 : ℤ) * (2:ℕ) = (-124 : ℤ)) from by norm_num,
              show (-125 : ℤ) = (-1) + (-124) by ring, zpow_add₀ h2ne]
            norm_num
      _ ≤ (aF * (2:ℚ)^(-62 : ℤ))^2 := by
            rw [mul_pow]
            apply mul_le_mul_of_nonneg_right _ (by positivity)
            rw [aF]; norm_num
      _ ≤ |F32.val N|^2 := pow_le_pow_left (by positivity) h3 2
      _ = (F32.val N)^2 := sq_abs _
    · calc (F32.val N)^2 = |F32.val N|^2 := (sq_abs _).symm
      _ ≤ (bF * (2:ℚ)^(61 : ℤ))^2 := pow_le_pow_left (abs_nonneg _) h4 2
      _ ≤ (2:ℚ)^(123 : ℤ) := by
            rw [mul_pow, ← zpow_natCast ((2:ℚ)^(61 : ℤ)) 2, ← zpow_mul,
              show ((61 : ℤ) * (2:ℕ) = (122 : ℤ)) from by norm_num,
              show ((2:ℚ)^(123 : ℤ) = 2 * (2:ℚ)^(122 : ℤ)) from by
                rw [show (123 : ℤ) = 1 + 122 by ring, zpow_add₀ h2ne]; norm_num]
            apply mul_le_mul_of_nonneg_right _ (by positivity)
            rw [bF]; norm_num

/-- Squared relative window of a divided component, multiplied back through
the (squared) divisor: relates the square of the computed quotient to the
square of the exact component value. -/
theorem div_sq_window (c N : F32) (VL : ℚ) (hVL : 0 < VL)
    (h : ((∃ s, N = F32.zero s) ∧ F32.val c = 0) ∨
         (∃ m e, N = F32.num m e ∧ m.natAbs ≤ 16777216 ∧
           aF * (2:ℚ)^(-62 : ℤ) ≤ |F32.val N| ∧ |F32.val N| ≤ bF * (2:ℚ)^(61 : ℤ) ∧
           |F32.val N - F32.val c / VL| ≤ |F32.val c / VL| / 16777216)) :
    aF^2 * (F32.val c)^2 ≤ (F32.val N)^2 * VL^2 ∧
    (F32.val N)^2 * VL^2 ≤ bF^2 * (F32.val c)^2 := by
  rcases h with ⟨⟨s, hs⟩, hc0⟩ | ⟨m, e, h1, h2, h3, h4, h5⟩
  · rw [hs, hc0]
    simp [F32.val]
  · obtain ⟨hb1, hb2⟩ := err_window h5
    have haF0 : (0:ℚ) < aF := by rw [aF]; norm_num
    have hq2 : |F32.val c / VL|^2 * VL^2 = (F32.val c)^2 := by
      rw [sq_abs, div_pow, div_mul_cancel₀]
      exact ne_of_gt (pow_pos hVL 2)
    have hW2 : (0:ℚ) ≤ VL^2 := le_of_lt (pow_pos hVL 2)
    constructor
    · have hsq := pow_le_pow_left (by positivity) hb1 2
      have := mul_le_mul_of_nonneg_right hsq hW2
      calc aF^2 * (F32.val c)^2 = (aF * |F32.val c / VL|)^2 * VL^2 := by
            rw [mul_pow, mul_assoc, hq2]
      _ ≤ |F32.val N|^2 * VL^2 := this
      _ = (F32.val N)^2 * VL^2 := by rw [sq_abs]
    · have hsq := pow_le_pow_left (abs_nonneg _) hb2 2
      have := mul_le_mul_of_nonneg_right hsq hW2
      calc (F32.val N)^2 * VL^2 = |F32.val N|^2 * VL^2 := by rw [sq_abs]
      _ ≤ (bF * |F32.val c / VL|)^2 * VL^2 := this
      _ = bF^2 * (F32.val c)^2 := by rw [mul_pow, mul_assoc, hq2]

/-- C1 (counterexample): with the scalar on the left the code does NOT apply
the scalar in that operand position: `0.0 - (1,1,1)` evaluates to `(1,1,1)`
(it is computed as `(1,1,1) - 0.0`), not to `(0-1, 0-1, 0-1)`. -/
theorem scalar_left_sub_counterexample :
    Vec3.subSV (F32.zero false) ⟨F32.num 1 0, F32.num 1 0, F32.num 1 0⟩ ≠
      ⟨(F32.zero false).sub (F32.num 1 0), (F32.zero false).sub (F32.num 1 0),
        (F32.zero false).sub (F32.num 1 0)⟩ := by decide

/-- C1 (amended): every binary operator with a scalar applies the scalar to
all three components.  With the scalar on the right each component is
`v.c op s`; with the scalar on the left the implementation swaps the
operands, so each component is again `v.c op s` — which coincides with
`s op v.c` for the commutative `+` and `*`, but not for `-` and `/`. -/
theorem scalar_broadcast_componentwise (v : Vec3) (s : F32) :
    v.addVS s = ⟨v.x.add s, v.y.add s, v.z.add s⟩ ∧
    v.subVS s = ⟨v.x.sub s, v.y.sub s, v.z.sub s⟩ ∧
    v.mulVS s = ⟨v.x.mul s, v.y.mul s, v.z.mul s⟩ ∧
    v.divVS s = ⟨v.x.div s, v.y.div s, v.z.div s⟩ ∧
    Vec3.addSV s v = ⟨s.add v.x, s.add v.y, s.add v.z⟩ ∧
    Vec3.mulSV s v = ⟨s.mul v.x, s.mul v.y, s.mul v.z⟩ ∧
    Vec3.subSV s v = ⟨v.x.sub s, v.y.sub s, v.z.sub s⟩ ∧
    Vec3.divSV s v = ⟨v.x.div s, v.y.div s, v.z.div s⟩ := by
  refine ⟨rfl, rfl, rfl, rfl, ?_, ?_, rfl, rfl⟩
  · show Vec3.mk (v.x.add s) (v.y.add s) (v.z.add s) = _
    rw [F32.add_comm v.x s, F32.add_comm v.y s, F32.add_comm v.z s]
  · show Vec3.mk (v.x.mul s) (v.y.mul s) (v.z.mul s) = _
    rw [F32.mul_comm v.x s, F32.mul_comm v.y s, F32.mul_comm v.z s]

/-- C2 (counterexample): the gradient generator truncates, it does not round:
at width = height = 256 the cell in row 128, column 0 has red channel 130,
while `round(259.999 * 128/255) = 131`. -/
theorem gradient_round_counterexample :
    ((to_draw 256 256).cell 128 0).r = 130 ∧ specRound 128 256 = 131 := by
  constructor
  · have h : (to_draw 256 256).cell 128 0 =
        ⟨(factor.mul ((natToF32 128).div (natToF32 255))).toU8,
          (factor.mul ((natToF32 0).div (natToF32 255))).toU8, 0⟩ := by
      simp only [to_draw]
      exact cell_new_assign (by decide) (by decide)
    rw [h]
    decide
  · rw [specRound, round_eq]
    rw [Int.floor_eq_iff]
    constructor <;> norm_num

/-- C2 (amended): for width `W` and height `H` (at least 2), every cell
(row `i`, col `j`) of the gradient holds the pixel whose red channel is the
`f32` value `259.999 * (i as f32 / (W-1) as f32)` cast to `u8` (truncation
toward zero, saturating) — truncation, not rounding — whose green channel is
the same formula in `j` and `H`, and whose blue channel is 0. -/
theorem to_draw_cell (W H : ℕ) (_hW : 2 ≤ W) (_hH : 2 ≤ H) (i j : ℕ)
    (hi : i < W) (hj : j < H) :
    (to_draw W H).cell i j =
      ⟨(factor.mul ((natToF32 i).div (natToF32 (W - 1)))).toU8,
        (factor.mul ((natToF32 j).div (natToF32 (H - 1)))).toU8, 0⟩ := by
  simp only [to_draw]
  exact cell_new_assign hi hj

/-- Witness for C2's amended theorem at `W = H = 2`, `i = 1`, `j = 0`. -/
theorem to_draw_cell_witness : (to_draw 2 2).cell 1 0 = ⟨255, 0, 0⟩ := by
  rw [to_draw_cell 2 2 (by decide) (by decide) 1 0 (by decide) (by decide)]
  decide

/-- C3: `new_assign` builds the grid from one initializer value per cell: the
cell at (row, col) holds `pix_init row col`, the concatenated grid is exactly
the initializer mapped over the row-major enumeration of the cells (row index
first), and that enumeration lists each in-range cell exactly once. -/
theorem new_assign_grid (h w : ℕ) (f : ℕ → ℕ → Pixel) :
    (∀ r c, r < h → c < w → (Image.new_assign h w f).cell r c = f r c) ∧
    (Image.new_assign h w f).pixels.flatten =
      (rowMajor h w).map (fun p => f p.1 p.2) ∧
    (rowMajor h w).Nodup ∧
    (∀ r c, (r, c) ∈ rowMajor h w ↔ r < h ∧ c < w) := by
  refine ⟨fun r c hr hc => cell_new_assign hr hc, ?_, ?_, fun r c => ?_⟩
  · show (((List.range h).map fun row =>
        (List.range w).map fun col => f row col)).flatten = _
    rw [← List.flatMap_def]
    simp [rowMajor, List.map_flatMap, List.map_map, Function.comp_def]
  · rw [rowMajor_eq_product]
    exact List.Nodup.product (List.nodup_range h) (List.nodup_range w)
  · rw [rowMajor_eq_product]
    simp [List.mem_product]

/-- Witness for C3 at a concrete grid and initializer. -/
theorem new_assign_grid_witness :
    (Image.new_assign 2 3 fun r c => ⟨r, c, 0⟩).cell 1 2 = ⟨1, 2, 0⟩ :=
  (new_assign_grid 2 3 fun r c => ⟨r, c, 0⟩).1 1 2 (by decide) (by decide)

/-- C4 (counterexample): the spec claim fails for large components: for
`a = (2^70, 0, 0)` the squared length overflows to `+inf`, so `len a = +inf`
(which is `!= 0.0`), yet every component of `normalize a` is a zero and
`len (normalize a) = 0`, not within `0.01` of `1`. -/
theorem normalize_length_counterexample :
    Vec3.len ⟨F32.num 1 70, F32.zero false, F32.zero false⟩ = F32.inf false ∧
    F32.feq (Vec3.len ⟨F32.num 1 70, F32.zero false, F32.zero false⟩)
      (F32.zero false) = false ∧
    Vec3.len (Vec3.normalize ⟨F32.num 1 70, F32.zero false, F32.zero false⟩) =
      F32.zero false := by
  refine ⟨by decide, by decide, by decide⟩

set_option maxHeartbeats 2000000 in
/-- C4 (amended): for a vector whose components are zeros or of magnitude
between `2^-30` and `2^30` (with binary32-sized mantissas), if the computed
length compares `!= 0.0` then the computed length of the normalized vector is
a finite value within `0.01` of `1`. -/
theorem normalize_length_near_one (a : Vec3)
    (hx : inRange a.x) (hy : inRange a.y) (hz : inRange a.z)
    (hlen : F32.feq a.len (F32.zero false) = false) :
    ∃ m e, (a.normalize).len = F32.num m e ∧
      |F32.val ((a.normalize).len) - 1| < 1/100 := by
  have h2Q : (0:ℚ) < 2 := by norm_num
  have h2ne : (2:ℚ) ≠ 0 := by norm_num
  have haF0 : (0:ℚ) < aF := by rw [aF]; norm_num
  have haF12 : (1/2 : ℚ) ≤ aF := by rw [aF]; norm_num
  have haF1 : aF ≤ 1 := by rw [aF]; norm_num
  have hbF0 : (0:ℚ) < bF := by rw [bF]; norm_num
  have hbF1 : (1:ℚ) ≤ bF := by rw [bF]; norm_num
  have hbF2 : bF ≤ 2 := by rw [bF]; norm_num
  have hzle : ∀ (u v : ℤ), u ≤ v → (2:ℚ)^u ≤ (2:ℚ)^v := fun u v huv =>
    (zpow_le_zpow_iff_right₀ (by norm_num : (1:ℚ) < 2)).mpr huv
  -- shape of an in-range component, for the first squaring pass
  have hshape : ∀ c : F32, inRange c →
      (∃ s, c = F32.zero s) ∨
      ∃ m e, c = F32.num m e ∧ m.natAbs ≤ 16777216 ∧
        (2:ℚ)^(-63 : ℤ) ≤ |F32.val c| ∧ |F32.val c| ≤ (2:ℚ)^(63 : ℤ) := by
    intro c hc
    rcases hc with ⟨s, hs⟩ | ⟨m, e, h1, h2, h3, h4⟩
    · exact Or.inl ⟨s, hs⟩
    · exact Or.inr ⟨m, e, h1, h2, le_trans (hzle _ _ (by norm_num)) h3,
        le_trans h4 (hzle _ _ (by norm_num))⟩
  -- magnitude of the square of an in-range component
  have hsqb : ∀ c : F32, inRange c →
      ((F32.val c)^2 = 0 ∨ (2:ℚ)^(-60 : ℤ) ≤ (F32.val c)^2) ∧
      (F32.val c)^2 ≤ (2:ℚ)^(60 : ℤ) := by
    intro c hc
    rcases hc with ⟨s, hs⟩ | ⟨m, e, h1, h2, h3, h4⟩
    · constructor
      · left; rw [hs]; simp [F32.val]
      · rw [hs]; simp [F32.val]; positivity
    · constructor
      · right
        calc (2:ℚ)^(-60 : ℤ) = ((2:ℚ)^(-30 : ℤ))^2 := by
              rw [← zpow_natCast ((2:ℚ)^(-30 : ℤ)) 2, ← zpow_mul]; norm_num
        _ ≤ |F32.val c|^2 := pow_le_pow_left (by positivity) h3 2
        _ = (F32.val c)^2 := sq_abs _
      · calc (F32.val c)^2 = |F32.val c|^2 := (sq_abs _).symm
        _ ≤ ((2:ℚ)^(30 : ℤ))^2 := pow_le_pow_left (abs_nonneg _) h4 2
        _ = (2:ℚ)^(60 : ℤ) := by
              rw [← zpow_natCast ((2:ℚ)^(30 : ℤ)) 2, ← zpow_mul]; norm_num
  obtain ⟨hbx, hbx'⟩ := hsqb _ hx
  obtain ⟨hby, hby'⟩ := hsqb _ hy
  obtain ⟨hbz, hbz'⟩ := hsqb _ hz
  have hz125 : (2:ℚ)^(-125 : ℤ) ≤ (2:ℚ)^(-60 : ℤ) := hzle _ _ (by norm_num)
  have hz60_124 : (2:ℚ)^(60 : ℤ) ≤ (2:ℚ)^(124 : ℤ) := hzle _ _ (by norm_num)
  have hz123_124 : (2:ℚ)^(123 : ℤ) ≤ (2:ℚ)^(124 : ℤ) := hzle _ _ (by norm_num)
  have hweak : ∀ t : ℚ, (t = 0 ∨ (2:ℚ)^(-60 : ℤ) ≤ t) →
      (t = 0 ∨ (2:ℚ)^(-125 : ℤ) ≤ t) := by
    intro t ht
    rcases ht with h | h
    · exact Or.inl h
    · exact Or.inr (le_trans hz125 h)
  -- first pass: squared length of `a`
  have hA1 := add_approx _ _ _ _ aF bF (sq_approx a.x (hshape _ hx))
    (sq_approx a.y (hshape _ hy)) haF12 hbF1 hbF2 (hweak _ hbx) (hweak _ hby)
    (le_trans hbx' hz60_124) (le_trans hby' hz60_124)
  have hsum0 : ((F32.val a.x)^2 + (F32.val a.y)^2 = 0) ∨
      (2:ℚ)^(-125 : ℤ) ≤ (F32.val a.x)^2 + (F32.val a.y)^2 := by
    rcases hweak _ hbx with h1 | h1 <;> rcases hweak _ hby with h2 | h2
    · left; rw [h1, h2]; ring
    · right; linarith only [h1, h2, sq_nonneg (F32.val a.x)]
    · right; linarith only [h1, h2, sq_nonneg (F32.val a.y)]
    · right; linarith only [h1, h2, sq_nonneg (F32.val a.x), sq_nonneg (F32.val a.y)]
  have hsum124 : (F32.val a.x)^2 + (F32.val a.y)^2 ≤ (2:ℚ)^(124 : ℤ) := by
    have h61 : (2:ℚ)^(61 : ℤ) = 2 * (2:ℚ)^(60 : ℤ) := by
      rw [show (61 : ℤ) = 1 + 60 by ring, zpow_add₀ h2ne, zpow_one]
    have h61' : (2:ℚ)^(61 : ℤ) ≤ (2:ℚ)^(124 : ℤ) := hzle _ _ (by norm_num)
    linarith only [hbx', hby', h61, h61']
  have hA2 := add_approx _ _ _ _ (aF*aF) (bF*bF) hA1
    (approx_weaken _ _ _ _ _ _ (sq_approx a.z (hshape _ hz))
      (by nlinarith) (by nlinarith))
    (by rw [aF]; norm_num) (by rw [bF]; norm_num) (by rw [bF]; norm_num)
    hsum0 (hweak _ hbz) hsum124 (le_trans hbz' hz60_124)
  have hlseq : a.len_squared =
      ((a.x.mul a.x).add (a.y.mul a.y)).add (a.z.mul a.z) := rfl
  have hlendef : a.len = a.len_squared.fsqrt := rfl
  rcases hA2 with ⟨⟨s, hls⟩, hS0⟩ | ⟨ms, es, hls, hms, hSpos, hw1, hw2⟩
  · exfalso
    have hlz : a.len = F32.zero s := by
      rw [hlendef, hlseq, hls]
      rfl
    rw [hlz] at hlen
    simp [F32.feq] at hlen
  -- bounds on the exact squared length S
  have hS60 : (2:ℚ)^(-60 : ℤ) ≤ ((F32.val a.x)^2 + (F32.val a.y)^2) + (F32.val a.z)^2 := by
    rcases hbx with h1 | h1 <;> rcases hby with h2 | h2 <;> rcases hbz with h3 | h3
    · exfalso; rw [h1, h2, h3] at hSpos; norm_num at hSpos
    all_goals linarith only [h1, h2, h3, sq_nonneg (F32.val a.x),
      sq_nonneg (F32.val a.y), sq_nonneg (F32.val a.z)]
  have hS62 : ((F32.val a.x)^2 + (F32.val a.y)^2) + (F32.val a.z)^2 ≤ (2:ℚ)^(62 : ℤ) := by
    have h4 : (2:ℚ)^(62 : ℤ) = 4 * (2:ℚ)^(60 : ℤ) := by
      rw [show (62 : ℤ) = 2 + 60 by ring, zpow_add₀ h2ne]; norm_num
    linarith only [hbx', hby', hbz', h4]
  -- the computed squared length
  rw [hls] at hw1 hw2
  have hLsdef : F32.val (F32.num ms es) = (ms:ℚ) * (2:ℚ)^es := rfl
  have hLs0 : 0 < F32.val (F32.num ms es) :=
    lt_of_lt_of_le (mul_pos (by rw [aF]; norm_num) hSpos) hw1
  have hms0 : 0 < ms := by
    have hpes : (0:ℚ) < (2:ℚ)^es := zpow_pos h2Q es
    have hv := hLs0
    rw [hLsdef] at hv
    by_contra hcon
    push_neg at hcon
    have hle : (ms:ℚ) ≤ 0 := by exact_mod_cast hcon
    nlinarith only [hpes, hv, hle]
  have hLs61 : (2:ℚ)^(-61 : ℤ) ≤ F32.val (F32.num ms es) := by
    calc (2:ℚ)^(-61 : ℤ) = (1/2) * (2:ℚ)^(-60 : ℤ) := by
          rw [show (-61 : ℤ) = (-1) + (-60) by ring, zpow_add₀ h2ne]; norm_num
    _ ≤ (aF*aF*aF) * (((F32.val a.x)^2 + (F32.val a.y)^2) + (F32.val a.z)^2) :=
          mul_le_mul (by rw [aF]; norm_num) hS60 (by positivity) (by rw [aF]; norm_num)
    _ ≤ _ := hw1
  have hLs63 : F32.val (F32.num ms es) ≤ (2:ℚ)^(63 : ℤ) := by
    calc F32.val (F32.num ms es)
        ≤ (bF*bF*bF) * (((F32.val a.x)^2 + (F32.val a.y)^2) + (F32.val a.z)^2) := hw2
    _ ≤ 2 * (2:ℚ)^(62 : ℤ) := mul_le_mul (by rw [bF]; norm_num) hS62
          (by positivity) (by norm_num)
    _ = (2:ℚ)^(63 : ℤ) := by
          rw [show (63 : ℤ) = 1 + 62 by ring, zpow_add₀ h2ne, zpow_one]
  -- square root: the computed length
  obtain ⟨mL, eL, hLeq, hmLsz, hVL0, hsq1, hsq2⟩ := fsqrt_spec ms es hms0
    (lt_of_le_of_lt hms (by norm_num)) (F32.val (F32.num ms es)) hLsdef
  have hlenEq : a.len = F32.num mL eL := by
    rw [hlendef, hlseq, hls]
    exact hLeq
  have hvalLen : F32.val a.len = (mL:ℚ) * (2:ℚ)^eL := by rw [hlenEq]; rfl
  -- bounds on the computed length VL
  have hz62m : (2:ℚ)^(-31 : ℤ) * (2:ℚ)^(-31 : ℤ) = (2:ℚ)^(-62 : ℤ) := by
    rw [← zpow_add₀ h2ne]; norm_num
  have hz61m : (2:ℚ)^(-61 : ℤ) = 2 * (2:ℚ)^(-62 : ℤ) := by
    rw [show (-61 : ℤ) = 1 + (-62) by ring, zpow_add₀ h2ne, zpow_one]
  have hVLlo : (2:ℚ)^(-31 : ℤ) ≤ (mL:ℚ) * (2:ℚ)^eL := by
    by_contra hcon
    push_neg at hcon
    have hs1 : ((mL:ℚ) * (2:ℚ)^eL)^2 < (2:ℚ)^(-62 : ℤ) := by
      rw [← hz62m]
      nlinarith only [hVL0, hcon, zpow_pos h2Q (-31 : ℤ)]
    rw [hz61m] at hLs61
    linarith only [hsq1, hLs61, hs1, zpow_pos h2Q (-62 : ℤ)]
  have hz64m : (2:ℚ)^(32 : ℤ) * (2:ℚ)^(32 : ℤ) = (2:ℚ)^(64 : ℤ) := by
    rw [← zpow_add₀ h2ne]; norm_num
  have hz64m' : (2:ℚ)^(64 : ℤ) = 2 * (2:ℚ)^(63 : ℤ) := by
    rw [show (64 : ℤ) = 1 + 63 by ring, zpow_add₀ h2ne, zpow_one]
  have hVLhi : (mL:ℚ) * (2:ℚ)^eL ≤ (2:ℚ)^(32 : ℤ) := by
    by_contra hcon
    push_neg at hcon
    have hs1 : (2:ℚ)^(64 : ℤ) < ((mL:ℚ) * (2:ℚ)^eL)^2 := by
      rw [← hz64m]
      nlinarith only [zpow_pos h2Q (32 : ℤ), hcon]
    rw [hz64m'] at hs1
    linarith only [hsq2, hLs63, hs1, zpow_pos h2Q (63 : ℤ)]
  -- divide each component by the length
  have hDx := div_approx a.x a.len mL eL hlenEq hmLsz (by rw [hvalLen]; exact hVL0)
    (by rw [hvalLen]; exact hVLlo) (by rw [hvalLen]; exact hVLhi) hx
  have hDy := div_approx a.y a.len mL eL hlenEq hmLsz (by rw [hvalLen]; exact hVL0)
    (by rw [hvalLen]; exact hVLlo) (by rw [hvalLen]; exact hVLhi) hy
  have hDz := div_approx a.z a.len mL eL hlenEq hmLsz (by rw [hvalLen]; exact hVL0)
    (by rw [hvalLen]; exact hVLlo) (by rw [hvalLen]; exact hVLhi) hz
  rw [hvalLen] at hDx hDy hDz
  -- second-pass facts per component
  obtain ⟨hNxs, hNxb, hNxb'⟩ := post_div_facts (a.x.div a.len) (by
    rcases hDx with ⟨⟨s', hs'⟩, _⟩ | ⟨m, e, h1, h2, h3, h4, _⟩
    · exact Or.inl ⟨s', hs'⟩
    · exact Or.inr ⟨m, e, h1, h2, h3, h4⟩)
  obtain ⟨hNys, hNyb, hNyb'⟩ := post_div_facts (a.y.div a.len) (by
    rcases hDy with ⟨⟨s', hs'⟩, _⟩ | ⟨m, e, h1, h2, h3, h4, _⟩
    · exact Or.inl ⟨s', hs'⟩
    · exact Or.inr ⟨m, e, h1, h2, h3, h4⟩)
  obtain ⟨hNzs, hNzb, hNzb'⟩ := post_div_facts (a.z.div a.len) (by
    rcases hDz with ⟨⟨s', hs'⟩, _⟩ | ⟨m, e, h1, h2, h3, h4, _⟩
    · exact Or.inl ⟨s', hs'⟩
    · exact Or.inr ⟨m, e, h1, h2, h3, h4⟩)
  -- second pass: squared length of the normalized vector
  have hA1' := add_approx _ _ _ _ aF bF (sq_approx _ hNxs) (sq_approx _ hNys)
    haF12 hbF1 hbF2 hNxb hNyb (le_trans hNxb' hz123_124) (le_trans hNyb' hz123_124)
  have hsum0' : ((F32.val (a.x.div a.len))^2 + (F32.val (a.y.div a.len))^2 = 0) ∨
      (2:ℚ)^(-125 : ℤ) ≤ (F32.val (a.x.div a.len))^2 + (F32.val (a.y.div a.len))^2 := by
    rcases hNxb with h1 | h1 <;> rcases hNyb with h2 | h2
    · left; rw [h1, h2]; ring
    · right; linarith only [h1, h2, sq_nonneg (F32.val (a.x.div a.len))]
    · right; linarith only [h1, h2, sq_nonneg (F32.val (a.y.div a.len))]
    · right; linarith only [h1, h2, sq_nonneg (F32.val (a.x.div a.len)),
        sq_nonneg (F32.val (a.y.div a.len))]
  have hsum124' : (F32.val (a.x.div a.len))^2 + (F32.val (a.y.div a.len))^2 ≤
      (2:ℚ)^(124 : ℤ) := by
    have h4 : (2:ℚ)^(124 : ℤ) = (2:ℚ)^(123 : ℤ) + (2:ℚ)^(123 : ℤ) := by
      rw [show (124 : ℤ) = 1 + 123 by ring, zpow_add₀ h2ne, zpow_one]; ring
    linarith only [hNxb', hNyb', h4]
  have hA2' := add_approx _ _ _ _ (aF*aF) (bF*bF) hA1'
    (approx_weaken _ _ _ _ _ _ (sq_approx _ hNzs) (by nlinarith) (by nlinarith))
    (by rw [aF]; norm_num) (by rw [bF]; norm_num) (by rw [bF]; norm_num)
    hsum0' hNzb hsum124' (le_trans hNzb' hz123_124)
  -- the exact squared length V2 of the normalized vector is positive
  have hV2pos : 0 < ((F32.val (a.x.div a.len))^2 + (F32.val (a.y.div a.len))^2) +
      (F32.val (a.z.div a.len))^2 := by
    have hxyz : F32.val a.x ≠ 0 ∨ F32.val a.y ≠ 0 ∨ F32.val a.z ≠ 0 := by
      by_contra hcon
      push_neg at hcon
      obtain ⟨h1', h2', h3'⟩ := hcon
      rw [h1', h2', h3'] at hSpos
      norm_num at hSpos
    have hposA : (0:ℚ) < aF * (2:ℚ)^(-62 : ℤ) :=
      mul_pos haF0 (zpow_pos h2Q _)
    rcases hxyz with h | h | h
    · rcases hDx with ⟨_, h0⟩ | ⟨m, e, h1, h2, h3, h4, h5⟩
      · exact absurd h0 h
      · have h6 : 0 < (F32.val (a.x.div a.len))^2 := by
          have : 0 < |F32.val (a.x.div a.len)| := lt_of_lt_of_le hposA h3
          rw [← sq_abs]
          positivity
        linarith only [h6, sq_nonneg (F32.val (a.y.div a.len)),
          sq_nonneg (F32.val (a.z.div a.len))]
    · rcases hDy with ⟨_, h0⟩ | ⟨m, e, h1, h2, h3, h4, h5⟩
      · exact absurd h0 h
      · have h6 : 0 < (F32.val (a.y.div a.len))^2 := by
          have : 0 < |F32.val (a.y.div a.len)| := lt_of_lt_of_le hposA h3
          rw [← sq_abs]
          positivity
        linarith only [h6, sq_nonneg (F32.val (a.x.div a.len)),
          sq_nonneg (F32.val (a.z.div a.len))]
    · rcases hDz with ⟨_, h0⟩ | ⟨m, e, h1, h2, h3, h4, h5⟩
      · exact absurd h0 h
      · have h6 : 0 < (F32.val (a.z.div a.len))^2 := by
          have : 0 < |F32.val (a.z.div a.len)| := lt_of_lt_of_le hposA h3
          rw [← sq_abs]
          positivity
        linarith only [h6, sq_nonneg (F32.val (a.x.div a.len)),
          sq_nonneg (F32.val (a.y.div a.len))]
  rcases hA2' with ⟨⟨s', hls'⟩, hV0'⟩ | ⟨m2, e2, hls2, hm2sz, _, hw1', hw2'⟩
  · rw [hV0'] at hV2pos
    exact absurd hV2pos (lt_irrefl 0)
  rw [hls2] at hw1' hw2'
  have hu2def : F32.val (F32.num m2 e2) = (m2:ℚ) * (2:ℚ)^e2 := rfl
  have hu2pos : 0 < F32.val (F32.num m2 e2) :=
    lt_of_lt_of_le (mul_pos (by rw [aF]; norm_num) hV2pos) hw1'
  have hm2pos : 0 < m2 := by
    have hpe2 : (0:ℚ) < (2:ℚ)^e2 := zpow_pos h2Q e2
    have hv := hu2pos
    rw [hu2def] at hv
    by_contra hcon
    push_neg at hcon
    have hle : (m2:ℚ) ≤ 0 := by exact_mod_cast hcon
    nlinarith only [hpe2, hv, hle]
  -- final square root
  obtain ⟨mF, eF, hFeq, hmFsz, hVF0, hfs1, hfs2⟩ := fsqrt_spec m2 e2 hm2pos
    (lt_of_le_of_lt hm2sz (by norm_num)) (F32.val (F32.num m2 e2)) hu2def
  have hlen2 : (a.normalize).len = F32.fsqrt
      ((((a.x.div a.len).mul (a.x.div a.len)).add
        ((a.y.div a.len).mul (a.y.div a.len))).add
        ((a.z.div a.len).mul (a.z.div a.len))) := rfl
  have hfinal : (a.normalize).len = F32.num mF eF := by
    rw [hlen2, hls2]
    exact hFeq
  -- window on V2 * VL^2 in terms of S
  have hVLpos2 : (0:ℚ) < ((mL:ℚ) * (2:ℚ)^eL)^2 := pow_pos hVL0 2
  obtain ⟨hWx1, hWx2⟩ := div_sq_window a.x (a.x.div a.len) _ hVL0 hDx
  obtain ⟨hWy1, hWy2⟩ := div_sq_window a.y (a.y.div a.len) _ hVL0 hDy
  obtain ⟨hWz1, hWz2⟩ := div_sq_window a.z (a.z.div a.len) _ hVL0 hDz
  have hWlo : aF^2 * (((F32.val a.x)^2 + (F32.val a.y)^2) + (F32.val a.z)^2) ≤
      (((F32.val (a.x.div a.len))^2 + (F32.val (a.y.div a.len))^2) +
        (F32.val (a.z.div a.len))^2) * ((mL:ℚ) * (2:ℚ)^eL)^2 := by
    have h := add_le_add (add_le_add hWx1 hWy1) hWz1
    calc aF^2 * (((F32.val a.x)^2 + (F32.val a.y)^2) + (F32.val a.z)^2)
        = (aF^2 * (F32.val a.x)^2 + aF^2 * (F32.val a.y)^2) + aF^2 * (F32.val a.z)^2 := by
          ring
    _ ≤ ((F32.val (a.x.div a.len))^2 * ((mL:ℚ) * (2:ℚ)^eL)^2 +
          (F32.val (a.y.div a.len))^2 * ((mL:ℚ) * (2:ℚ)^eL)^2) +
          (F32.val (a.z.div a.len))^2 * ((mL:ℚ) * (2:ℚ)^eL)^2 := h
    _ = (((F32.val (a.x.div a.len))^2 + (F32.val (a.y.div a.len))^2) +
          (F32.val (a.z.div a.len))^2) * ((mL:ℚ) * (2:ℚ)^eL)^2 := by ring
  have hWhi : (((F32.val (a.x.div a.len))^2 + (F32.val (a.y.div a.len))^2) +
        (F32.val (a.z.div a.len))^2) * ((mL:ℚ) * (2:ℚ)^eL)^2 ≤
      bF^2 * (((F32.val a.x)^2 + (F32.val a.y)^2) + (F32.val a.z)^2) := by
    have h := add_le_add (add_le_add hWx2 hWy2) hWz2
    calc (((F32.val (a.x.div a.len))^2 + (F32.val (a.y.div a.len))^2) +
          (F32.val (a.z.div a.len))^2) * ((mL:ℚ) * (2:ℚ)^eL)^2
        = ((F32.val (a.x.div a.len))^2 * ((mL:ℚ) * (2:ℚ)^eL)^2 +
          (F32.val (a.y.div a.len))^2 * ((mL:ℚ) * (2:ℚ)^eL)^2) +
          (F32.val (a.z.div a.len))^2 * ((mL:ℚ) * (2:ℚ)^eL)^2 := by ring
    _ ≤ (bF^2 * (F32.val a.x)^2 + bF^2 * (F32.val a.y)^2) + bF^2 * (F32.val a.z)^2 := h
    _ = bF^2 * (((F32.val a.x)^2 + (F32.val a.y)^2) + (F32.val a.z)^2) := by ring
  -- final combination, upper side
  have hTnn : (0:ℚ) ≤ ((mF:ℚ) * (2:ℚ)^eF)^2 := sq_nonneg _
  have hU1 : 16777215^2 * ((mF:ℚ) * (2:ℚ)^eF)^2 * ((mL:ℚ) * (2:ℚ)^eL)^2 ≤
      16777216^2 * (bF*bF*bF*bF*bF) *
        (((F32.val a.x)^2 + (F32.val a.y)^2) + (F32.val a.z)^2) := by
    have s1 : (16777215:ℚ)^2 * ((mF:ℚ) * (2:ℚ)^eF)^2 ≤
        16777216^2 * ((bF*bF*bF) *
          (((F32.val (a.x.div a.len))^2 + (F32.val (a.y.div a.len))^2) +
            (F32.val (a.z.div a.len))^2)) := by
      have h := mul_le_mul_of_nonneg_left hw2' (by norm_num : (0:ℚ) ≤ 16777216^2)
      linarith only [hfs2, h]
    have s2 := mul_le_mul_of_nonneg_right s1 hVLpos2.le
    have s3 := mul_le_mul_of_nonneg_left hWhi
      (by rw [bF]; norm_num : (0:ℚ) ≤ 16777216^2 * (bF*bF*bF))
    calc 16777215^2 * ((mF:ℚ) * (2:ℚ)^eF)^2 * ((mL:ℚ) * (2:ℚ)^eL)^2
        = (16777215^2 * ((mF:ℚ) * (2:ℚ)^eF)^2) * ((mL:ℚ) * (2:ℚ)^eL)^2 := by ring
    _ ≤ (16777216^2 * ((bF*bF*bF) *
          (((F32.val (a.x.div a.len))^2 + (F32.val (a.y.div a.len))^2) +
            (F32.val (a.z.div a.len))^2))) * ((mL:ℚ) * (2:ℚ)^eL)^2 := s2
    _ = (16777216^2 * (bF*bF*bF)) *
          ((((F32.val (a.x.div a.len))^2 + (F32.val (a.y.div a.len))^2) +
            (F32.val (a.z.div a.len))^2) * ((mL:ℚ) * (2:ℚ)^eL)^2) := by ring
    _ ≤ (16777216^2 * (bF*bF*bF)) *
          (bF^2 * (((F32.val a.x)^2 + (F32.val a.y)^2) + (F32.val a.z)^2)) := s3
    _ = 16777216^2 * (bF*bF*bF*bF*bF) *
          (((F32.val a.x)^2 + (F32.val a.y)^2) + (F32.val a.z)^2) := by ring
  have hU2 : (16777216:ℚ)^2 * ((aF*aF*aF) *
      (((F32.val a.x)^2 + (F32.val a.y)^2) + (F32.val a.z)^2)) ≤
      16777217^2 * ((mL:ℚ) * (2:ℚ)^eL)^2 := by
    calc (16777216:ℚ)^2 * ((aF*aF*aF) *
          (((F32.val a.x)^2 + (F32.val a.y)^2) + (F32.val a.z)^2))
        ≤ 16777216^2 * F32.val (F32.num ms es) :=
          mul_le_mul_of_nonneg_left hw1 (by norm_num)
    _ ≤ 16777217^2 * ((mL:ℚ) * (2:ℚ)^eL)^2 := hsq1
  have hU3 : (16777215:ℚ)^2 * ((mF:ℚ) * (2:ℚ)^eF)^2 * (aF*aF*aF) ≤
      16777217^2 * (bF*bF*bF*bF*bF) := by
    have c1 := mul_le_mul_of_nonneg_left hU2
      (mul_nonneg (by norm_num : (0:ℚ) ≤ 16777215^2) hTnn)
    have c2 := mul_le_mul_of_nonneg_left hU1 (by norm_num : (0:ℚ) ≤ 16777217^2)
    have c3 : (16777215:ℚ)^2 * ((mF:ℚ) * (2:ℚ)^eF)^2 * (aF*aF*aF) *
        (16777216^2 * (((F32.val a.x)^2 + (F32.val a.y)^2) + (F32.val a.z)^2)) ≤
        16777217^2 * (bF*bF*bF*bF*bF) *
        (16777216^2 * (((F32.val a.x)^2 + (F32.val a.y)^2) + (F32.val a.z)^2)) := by
      calc (16777215:ℚ)^2 * ((mF:ℚ) * (2:ℚ)^eF)^2 * (aF*aF*aF) *
            (16777216^2 * (((F32.val a.x)^2 + (F32.val a.y)^2) + (F32.val a.z)^2))
          = 16777215^2 * ((mF:ℚ) * (2:ℚ)^eF)^2 * (16777216^2 * ((aF*aF*aF) *
              (((F32.val a.x)^2 + (F32.val a.y)^2) + (F32.val a.z)^2))) := by ring
      _ ≤ 16777215^2 * ((mF:ℚ) * (2:ℚ)^eF)^2 * (16777217^2 * ((mL:ℚ) * (2:ℚ)^eL)^2) :=
            c1
      _ = 16777217^2 * (16777215^2 * ((mF:ℚ) * (2:ℚ)^eF)^2 * ((mL:ℚ) * (2:ℚ)^eL)^2) := by
            ring
      _ ≤ 16777217^2 * (16777216^2 * (bF*bF*bF*bF*bF) *
            (((F32.val a.x)^2 + (F32.val a.y)^2) + (F32.val a.z)^2)) := c2
      _ = 16777217^2 * (bF*bF*bF*bF*bF) *
            (16777216^2 * (((F32.val a.x)^2 + (F32.val a.y)^2) + (F32.val a.z)^2)) := by
            ring
    have hposS : (0:ℚ) < 16777216^2 *
        (((F32.val a.x)^2 + (F32.val a.y)^2) + (F32.val a.z)^2) :=
      mul_pos (by norm_num) hSpos
    exact le_of_mul_le_mul_right c3 hposS
  -- final combination, lower side
  have hL1 : (16777216:ℚ)^2 * (aF*aF*aF*aF*aF) *
      (((F32.val a.x)^2 + (F32.val a.y)^2) + (F32.val a.z)^2) ≤
      16777217^2 * ((mF:ℚ) * (2:ℚ)^eF)^2 * ((mL:ℚ) * (2:ℚ)^eL)^2 := by
    have s1 : (16777216:ℚ)^2 * ((aF*aF*aF) *
        (((F32.val (a.x.div a.len))^2 + (F32.val (a.y.div a.len))^2) +
          (F32.val (a.z.div a.len))^2)) ≤ 16777217^2 * ((mF:ℚ) * (2:ℚ)^eF)^2 := by
      calc (16777216:ℚ)^2 * ((aF*aF*aF) *
            (((F32.val (a.x.div a.len))^2 + (F32.val (a.y.div a.len))^2) +
              (F32.val (a.z.div a.len))^2))
          ≤ 16777216^2 * F32.val (F32.num m2 e2) :=
            mul_le_mul_of_nonneg_left hw1' (by norm_num)
      _ ≤ 16777217^2 * ((mF:ℚ) * (2:ℚ)^eF)^2 := hfs1
    have s2 := mul_le_mul_of_nonneg_right s1 hVLpos2.le
    have s3 := mul_le_mul_of_nonneg_left hWlo
      (by rw [aF]; norm_num : (0:ℚ) ≤ 16777216^2 * (aF*aF*aF))
    calc (16777216:ℚ)^2 * (aF*aF*aF*aF*aF) *
          (((F32.val a.x)^2 + (F32.val a.y)^2) + (F32.val a.z)^2)
        = (16777216^2 * (aF*aF*aF)) *
          (aF^2 * (((F32.val a.x)^2 + (F32.val a.y)^2) + (F32.val a.z)^2)) := by ring
    _ ≤ (16777216^2 * (aF*aF*aF)) *
          ((((F32.val (a.x.div a.len))^2 + (F32.val (a.y.div a.len))^2) +
            (F32.val (a.z.div a.len))^2) * ((mL:ℚ) * (2:ℚ)^eL)^2) := s3
    _ = (16777216^2 * ((aF*aF*aF) *
          (((F32.val (a.x.div a.len))^2 + (F32.val (a.y.div a.len))^2) +
            (F32.val (a.z.div a.len))^2))) * ((mL:ℚ) * (2:ℚ)^eL)^2 := by ring
    _ ≤ (16777217^2 * ((mF:ℚ) * (2:ℚ)^eF)^2) * ((mL:ℚ) * (2:ℚ)^eL)^2 := s2
    _ = 16777217^2 * ((mF:ℚ) * (2:ℚ)^eF)^2 * ((mL:ℚ) * (2:ℚ)^eL)^2 := by ring
  have hL2 : (16777215:ℚ)^2 * ((mL:ℚ) * (2:ℚ)^eL)^2 ≤
      16777216^2 * ((bF*bF*bF) *
        (((F32.val a.x)^2 + (F32.val a.y)^2) + (F32.val a.z)^2)) := by
    calc (16777215:ℚ)^2 * ((mL:ℚ) * (2:ℚ)^eL)^2
        ≤ 16777216^2 * F32.val (F32.num ms es) := hsq2
    _ ≤ 16777216^2 * ((bF*bF*bF) *
          (((F32.val a.x)^2 + (F32.val a.y)^2) + (F32.val a.z)^2)) :=
          mul_le_mul_of_nonneg_left hw2 (by norm_num)
  have hL3 : (16777215:ℚ)^2 * (aF*aF*aF*aF*aF) ≤
      16777217^2 * ((mF:ℚ) * (2:ℚ)^eF)^2 * (bF*bF*bF) := by
    have c1 := mul_le_mul_of_nonneg_left hL1 (by norm_num : (0:ℚ) ≤ 16777215^2)
    have c2 := mul_le_mul_of_nonneg_left hL2
      (mul_nonneg (by norm_num : (0:ℚ) ≤ 16777217^2) hTnn)
    have c3 : (16777215:ℚ)^2 * (aF*aF*aF*aF*aF) *
        (16777216^2 * (((F32.val a.x)^2 + (F32.val a.y)^2) + (F32.val a.z)^2)) ≤
        16777217^2 * ((mF:ℚ) * (2:ℚ)^eF)^2 * (bF*bF*bF) *
        (16777216^2 * (((F32.val a.x)^2 + (F32.val a.y)^2) + (F32.val a.z)^2)) := by
      calc (16777215:ℚ)^2 * (aF*aF*aF*aF*aF) *
            (16777216^2 * (((F32.val a.x)^2 + (F32.val a.y)^2) + (F32.val a.z)^2))
          = 16777215^2 * (16777216^2 * (aF*aF*aF*aF*aF) *
              (((F32.val a.x)^2 + (F32.val a.y)^2) + (F32.val a.z)^2)) := by ring
      _ ≤ 16777215^2 * (16777217^2 * ((mF:ℚ) * (2:ℚ)^eF)^2 * ((mL:ℚ) * (2:ℚ)^eL)^2) :=
            c1
      _ = 16777217^2 * ((mF:ℚ) * (2:ℚ)^eF)^2 * (16777215^2 * ((mL:ℚ) * (2:ℚ)^eL)^2) := by
            ring
      _ ≤ 16777217^2 * ((mF:ℚ) * (2:ℚ)^eF)^2 * (16777216^2 * ((bF*bF*bF) *
            (((F32.val a.x)^2 + (F32.val a.y)^2) + (F32.val a.z)^2))) := c2
      _ = 16777217^2 * ((mF:ℚ) * (2:ℚ)^eF)^2 * (bF*bF*bF) *
            (16777216^2 * (((F32.val a.x)^2 + (F32.val a.y)^2) + (F32.val a.z)^2)) := by
            ring
    have hposS : (0:ℚ) < 16777216^2 *
        (((F32.val a.x)^2 + (F32.val a.y)^2) + (F32.val a.z)^2) :=
      mul_pos (by norm_num) hSpos
    exact le_of_mul_le_mul_right c3 hposS
  -- numeric endgame
  have hTub : ((mF:ℚ) * (2:ℚ)^eF)^2 < (101/100)^2 := by
    have hnum : (16777217:ℚ)^2 * (bF*bF*bF*bF*bF) <
        (101/100)^2 * (16777215^2 * (aF*aF*aF)) := by
      rw [aF, bF]; norm_num
    have hcoef : (0:ℚ) < 16777215^2 * (aF*aF*aF) := by rw [aF]; norm_num
    nlinarith only [hU3, hnum, hcoef]
  have hTlb : (99/100:ℚ)^2 < ((mF:ℚ) * (2:ℚ)^eF)^2 := by
    have hnum : (99/100:ℚ)^2 * (16777217^2 * (bF*bF*bF)) <
        16777215^2 * (aF*aF*aF*aF*aF) := by
      rw [aF, bF]; norm_num
    have hcoef : (0:ℚ) < (16777217:ℚ)^2 * (bF*bF*bF) := by rw [bF]; norm_num
    nlinarith only [hL3, hnum, hcoef]
  have hVFub : (mF:ℚ) * (2:ℚ)^eF < 101/100 := by nlinarith only [hVF0, hTub]
  have hVFlb : (99/100:ℚ) < (mF:ℚ) * (2:ℚ)^eF := by nlinarith only [hVF0, hTlb]
  refine ⟨mF, eF, hfinal, ?_⟩
  rw [hfinal]
  have hvf : F32.val (F32.num mF eF) = (mF:ℚ) * (2:ℚ)^eF := rfl
  rw [hvf, abs_lt]
  constructor <;> linarith

/-- Witness for C4's amended theorem at the in-range vector `(3, 2, 1)`. -/
theorem normalize_length_near_one_witness :
    ∃ m e, ((Vec3.mk (natToF32 3) (natToF32 2) (natToF32 1)).normalize).len =
        F32.num m e ∧
      |F32.val (((Vec3.mk (natToF32 3) (natToF32 2) (natToF32 1)).normalize).len) - 1| <
        1/100 := by
  have h3 : natToF32 3 = F32.num 3 0 := by decide
  have h2 : natToF32 2 = F32.num 1 1 := by decide
  have h1 : natToF32 1 = F32.num 1 0 := by decide
  refine normalize_length_near_one ⟨natToF32 3, natToF32 2, natToF32 1⟩
    ?_ ?_ ?_ (by decide)
  · refine Or.inr ⟨3, 0, h3, by norm_num, ?_, ?_⟩
    · rw [show F32.val (Vec3.mk (natToF32 3) (natToF32 2) (natToF32 1)).x =
          (3:ℚ) from by rw [show (Vec3.mk (natToF32 3) (natToF32 2) (natToF32 1)).x =
            natToF32 3 from rfl, h3]; norm_num [F32.val]]
      rw [show ((2:ℚ)^(-30 : ℤ) = 1/1073741824) from by norm_num]
      norm_num
    · rw [show F32.val (Vec3.mk (natToF32 3) (natToF32 2) (natToF32 1)).x =
          (3:ℚ) from by rw [show (Vec3.mk (natToF32 3) (natToF32 2) (natToF32 1)).x =
            natToF32 3 from rfl, h3]; norm_num [F32.val]]
      rw [show ((2:ℚ)^(30 : ℤ) = 1073741824) from by norm_num]
      norm_num
  · refine Or.inr ⟨1, 1, h2, by norm_num, ?_, ?_⟩
    · rw [show F32.val (Vec3.mk (natToF32 3) (natToF32 2) (natToF32 1)).y =
          (2:ℚ) from by rw [show (Vec3.mk (natToF32 3) (natToF32 2) (natToF32 1)).y =
            natToF32 2 from rfl, h2]; norm_num [F32.val]]
      rw [show ((2:ℚ)^(-30 : ℤ) = 1/1073741824) from by norm_num]
      norm_num
    · rw [show F32.val (Vec3.mk (natToF32 3) (natToF32 2) (natToF32 1)).y =
          (2:ℚ) from by rw [show (Vec3.mk (natToF32 3) (natToF32 2) (natToF32 1)).y =
            natToF32 2 from rfl, h2]; norm_num [F32.val]]
      rw [show ((2:ℚ)^(30 : ℤ) = 1073741824) from by norm_num]
      norm_num
  · refine Or.inr ⟨1, 0, h1, by norm_num, ?_, ?_⟩
    · rw [show F32.val (Vec3.mk (natToF32 3) (natToF32 2) (natToF32 1)).z =
          (1:ℚ) from by rw [show (Vec3.mk (natToF32 3) (natToF32 2) (natToF32 1)).z =
            natToF32 1 from rfl, h1]; norm_num [F32.val]]
      rw [show ((2:ℚ)^(-30 : ℤ) = 1/1073741824) from by norm_num]
      norm_num
    · rw [show F32.val (Vec3.mk (natToF32 3) (natToF32 2) (natToF32 1)).z =
          (1:ℚ) from by rw [show (Vec3.mk (natToF32 3) (natToF32 2) (natToF32 1)).z =
            natToF32 1 from rfl, h1]; norm_num [F32.val]]
      rw [show ((2:ℚ)^(30 : ℤ) = 1073741824) from by norm_num]
      norm_num

/-- C5 (counterexample): component-wise floating-point equality fails on the
sum when a component is NaN, so `add(a,b) == add(b,a)` is false for
`a = (NaN, 0, 0)`, `b = (0, 0, 0)` even though both sums are identical. -/
theorem add_commutative_nan_counterexample :
    Vec3.veq
      (Vec3.add ⟨F32.nan, F32.zero false, F32.zero false⟩
        ⟨F32.zero false, F32.zero false, F32.zero false⟩)
      (Vec3.add ⟨F32.zero false, F32.zero false, F32.zero false⟩
        ⟨F32.nan, F32.zero false, F32.zero false⟩) = false := by decide

/-- C5 (amended): addition is commutative, and `add(a,b) == add(b,a)` holds
under the component-wise floating-point equality whenever no component of the
sum is NaN (with a NaN component `==` is false by IEEE semantics even though
the two sums are identical values). -/
theorem add_commutative_no_nan (a b : Vec3)
    (hx : (Vec3.add a b).x.isNaN = false) (hy : (Vec3.add a b).y.isNaN = false)
    (hz : (Vec3.add a b).z.isNaN = false) :
    Vec3.veq (Vec3.add a b) (Vec3.add b a) = true := by
  have ex : (Vec3.add b a).x = (Vec3.add a b).x := F32.add_comm b.x a.x
  have ey : (Vec3.add b a).y = (Vec3.add a b).y := F32.add_comm b.y a.y
  have ez : (Vec3.add b a).z = (Vec3.add a b).z := F32.add_comm b.z a.z
  rw [Vec3.veq, ex, ey, ez, F32.feq_refl _ hx, F32.feq_refl _ hy, F32.feq_refl _ hz]
  rfl

/-- Witness for C5's amended theorem at concrete NaN-free vectors. -/
theorem add_commutative_no_nan_witness :
    Vec3.veq
      (Vec3.add ⟨F32.num 1 0, F32.zero false, F32.num 3 0⟩
        ⟨F32.num 1 1, F32.num 1 0, F32.inf false⟩)
      (Vec3.add ⟨F32.num 1 1, F32.num 1 0, F32.inf false⟩
        ⟨F32.num 1 0, F32.zero false, F32.num 3 0⟩) = true :=
  add_commutative_no_nan _ _ (by decide) (by decide) (by decide)

/-- C6: the PPM encoding of the 2×2 image whose pixel at (i, j) is (i, j, i)
is exactly the header `P3`, `2 2`, `255` followed by the four pixel lines,
each channel printed right-aligned in a 3-character field. -/
theorem ppm_2x2_exact :
    ppmImage (Image.new_assign 2 2 fun i j => ⟨i, j, i⟩) =
      "P3\n2 2\n255\n  0   0   0\n  0   1   0\n  1   0   1\n  1   1   1\n" := by
  decide

/-- C7 (counterexample): the all-subnormal vector with components `2^-149`
has length exactly zero (its squared length underflows to `+0`), yet
normalizing it yields `(+∞, +∞, +∞)` — no NaN component at all. -/
theorem normalize_zero_length_counterexample :
    Vec3.len ⟨F32.num 1 (-149), F32.num 1 (-149), F32.num 1 (-149)⟩ = F32.zero false ∧
    Vec3.normalize ⟨F32.num 1 (-149), F32.num 1 (-149), F32.num 1 (-149)⟩ =
      ⟨F32.inf false, F32.inf false, F32.inf false⟩ := by decide

/-- C7 (amended): division by a zero component never aborts — it yields an
infinity or NaN in that component — and normalize applied to a vector whose
components are all (signed) zeros yields the all-NaN vector.  (A nonzero
subnormal vector can also have length exactly zero, in which case normalize
yields infinities rather than NaNs.) -/
theorem div_zero_and_normalize_zero (a b : Vec3) (sx sy sz : Bool)
    (hx : b.x = F32.zero sx) (hy : b.y = F32.zero sy) (hz : b.z = F32.zero sz) :
    ((Vec3.div a b).x.infOrNaN = true ∧ (Vec3.div a b).y.infOrNaN = true ∧
      (Vec3.div a b).z.infOrNaN = true) ∧
    Vec3.normalize ⟨F32.zero sx, F32.zero sy, F32.zero sz⟩ =
      ⟨F32.nan, F32.nan, F32.nan⟩ := by
  constructor
  · refine ⟨?_, ?_, ?_⟩
    · rw [show (Vec3.div a b).x = a.x.div b.x from rfl, hx]
      cases a.x <;> simp [F32.div, F32.infOrNaN]
    · rw [show (Vec3.div a b).y = a.y.div b.y from rfl, hy]
      cases a.y <;> simp [F32.div, F32.infOrNaN]
    · rw [show (Vec3.div a b).z = a.z.div b.z from rfl, hz]
      cases a.z <;> simp [F32.div, F32.infOrNaN]
  · cases sx <;> cases sy <;> cases sz <;> decide

/-- Witness for C7's amended theorem at a concrete zero divisor. -/
theorem div_zero_and_normalize_zero_witness :
    ((Vec3.div ⟨F32.num 1 0, F32.nan, F32.inf false⟩
        ⟨F32.zero false, F32.zero true, F32.zero false⟩).x.infOrNaN = true ∧
      (Vec3.div ⟨F32.num 1 0, F32.nan, F32.inf false⟩
        ⟨F32.zero false, F32.zero true, F32.zero false⟩).y.infOrNaN = true ∧
      (Vec3.div ⟨F32.num 1 0, F32.nan, F32.inf false⟩
        ⟨F32.zero false, F32.zero true, F32.zero false⟩).z.infOrNaN = true) ∧
    Vec3.normalize ⟨F32.zero false, F32.zero true, F32.zero false⟩ =
      ⟨F32.nan, F32.nan, F32.nan⟩ :=
  div_zero_and_normalize_zero _ _ false true false rfl rfl rfl

/-- C8: both constructors produce a grid with exactly `height` rows, each of
exactly `width` entries, where `height` and `width` are the stored fields. -/
theorem image_dims (h w : ℕ) (f : ℕ → ℕ → Pixel) :
    ((Image.new h w).pixels.length = (Image.new h w).height ∧
      (Image.new h w).pixels.map List.length =
        List.replicate (Image.new h w).height (Image.new h w).width) ∧
    ((Image.new_assign h w f).pixels.length = (Image.new_assign h w f).height ∧
      (Image.new_assign h w f).pixels.map List.length =
        List.replicate (Image.new_assign h w f).height (Image.new_assign h w f).width) := by
  refine ⟨⟨?_, ?_⟩, ⟨?_, ?_⟩⟩ <;>
    simp [Image.new, Image.new_assign, List.map_map, Function.comp_def, List.map_const']

/-- C9: component-wise, `min`/`max` drop a single NaN argument and return the
other component; a NaN appears in the result only when both inputs are NaN in
that component. -/
theorem minmax_nan_semantics (a b : Vec3) :
    ((a.x.isNaN = true → b.x.isNaN = false →
        (Vec3.min a b).x = b.x ∧ (Vec3.max a b).x = b.x) ∧
      (a.x.isNaN = false → b.x.isNaN = true →
        (Vec3.min a b).x = a.x ∧ (Vec3.max a b).x = a.x) ∧
      ((Vec3.min a b).x.isNaN = true ∨ (Vec3.max a b).x.isNaN = true →
        a.x.isNaN = true ∧ b.x.isNaN = true)) ∧
    ((a.y.isNaN = true → b.y.isNaN = false →
        (Vec3.min a b).y = b.y ∧ (Vec3.max a b).y = b.y) ∧
      (a.y.isNaN = false → b.y.isNaN = true →
        (Vec3.min a b).y = a.y ∧ (Vec3.max a b).y = a.y) ∧
      ((Vec3.min a b).y.isNaN = true ∨ (Vec3.max a b).y.isNaN = true →
        a.y.isNaN = true ∧ b.y.isNaN = true)) ∧
    ((a.z.isNaN = true → b.z.isNaN = false →
        (Vec3.min a b).z = b.z ∧ (Vec3.max a b).z = b.z) ∧
      (a.z.isNaN = false → b.z.isNaN = true →
        (Vec3.min a b).z = a.z ∧ (Vec3.max a b).z = a.z) ∧
      ((Vec3.min a b).z.isNaN = true ∨ (Vec3.max a b).z.isNaN = true →
        a.z.isNaN = true ∧ b.z.isNaN = true)) :=
  ⟨fminmax_nan a.x b.x, fminmax_nan a.y b.y, fminmax_nan a.z b.z⟩

/-- Witness for C9 with a NaN in the first component of the left argument. -/
theorem minmax_nan_semantics_witness :
    (Vec3.min ⟨F32.nan, F32.num 1 0, F32.nan⟩ ⟨F32.num 2 0, F32.nan, F32.nan⟩).x =
        F32.num 2 0 ∧
      (Vec3.max ⟨F32.nan, F32.num 1 0, F32.nan⟩ ⟨F32.num 2 0, F32.nan, F32.nan⟩).x =
        F32.num 2 0 :=
  (minmax_nan_semantics ⟨F32.nan, F32.num 1 0, F32.nan⟩
    ⟨F32.num 2 0, F32.nan, F32.nan⟩).1.1 rfl rfl

/-- C10: the scalar-on-the-left implementations delegate by swapping the
operands, so `s op v` is the same Vec3 value as `v op s` for all four
operators; in particular `s - v` computes `(v.x - s, v.y - s, v.z - s)` and
`s / v` computes `(v.x / s, v.y / s, v.z / s)`. -/
theorem scalar_left_swaps (s : F32) (v : Vec3) :
    Vec3.addSV s v = v.addVS s ∧ Vec3.subSV s v = v.subVS s ∧
    Vec3.mulSV s v = v.mulVS s ∧ Vec3.divSV s v = v.divVS s ∧
    Vec3.subSV s v = ⟨v.x.sub s, v.y.sub s, v.z.sub s⟩ ∧
    Vec3.divSV s v = ⟨v.x.div s, v.y.div s, v.z.div s⟩ :=
  ⟨rfl, rfl, rfl, rfl, rfl, rfl⟩
